import Mathlib

/-!
# Verification of the OpenQuest RAG indexing pipeline

Shallow embedding, in Lean 4, of the pure core of the repository's
indexing/retrieval pipeline, together with theorems settling the frozen
claims about it.  Embedded modules:

* `apps/api/src/rag/ingestion/astChunker.ts`      — the chunker
* `apps/api/src/rag/ingestion/fileFilter.ts`      — the file filter
* the vector-store writer (`writeToVectorStore` and friends)
* `apps/api/src/rag/reranking/contextAssembler.ts` — the context assembler
* `apps/api/src/rag/ingestion/githubFetcher.ts`   — the URL parser
* `apps/worker/src/jobs/indexRepoJob.ts`          — the job processor

JavaScript numbers that are used as counters, sizes and line numbers are
modelled as `Nat`; timestamps as a single `Nat` instant (no claim depends
on durations); embedding vectors as `List Int` (no claim depends on
floating-point values).  Database tables are modelled as association lists
keyed by their primary key, and the asynchronous I/O of the job processor
as explicitly passed results of the external calls.

String operations are implemented structurally over `String.data` (rather
than through the position-based core loops) so that every definition
evaluates inside the kernel; each helper mirrors the corresponding
JavaScript string method exactly.  The `for`-loops that advance an index
by a fixed positive step are written as fuel recursion with fuel
`length + 1`, which is an upper bound on the number of iterations since
every iteration strictly increases the index.
-/

namespace OpenQuest

/-! ## String helpers (JS semantics, structural) -/

/-- JS `s.split(sep)` for a one-character separator: every separator
occurrence splits, empty segments are kept, `"" ↦ [""]`. -/
def splitOnCharList (sep : Char) : List Char → List (List Char)
  | [] => [[]]
  | c :: cs =>
    let rest := splitOnCharList sep cs
    if c = sep then [] :: rest
    else (c :: rest.headD []) :: rest.tail

def splitOnChar (sep : Char) (s : String) : List String :=
  (splitOnCharList sep s.data).map String.mk

/-- JS `Array.prototype.join(sep)` over strings. -/
def joinSep (sep : String) : List String → String
  | [] => ""
  | x :: xs => xs.foldl (fun acc y => acc ++ sep ++ y) x

/-- JS `s.toLowerCase()` (ASCII range, which is all the sources use). -/
def lowerStr (s : String) : String :=
  String.mk (s.data.map Char.toLower)

/-- JS `s.includes(c)` for a single character. -/
def containsChar (s : String) (c : Char) : Bool :=
  s.data.contains c

/-! ## Chunker data model (`astChunker.ts`) -/

/-- `CodeChunk` from `astChunker.ts`.  `symbolName?` is `Option String`. -/
structure CodeChunk where
  id : String
  repoId : String
  filePath : String
  language : String
  content : String
  startLine : Nat
  endLine : Nat
  symbolName : Option String
  chunkIndex : Nat
  deriving Repr, DecidableEq

/-- `ChunkingResult` from `astChunker.ts`. -/
structure ChunkingResult where
  chunks : List CodeChunk
  totalChunks : Nat
  strategy : String
  deriving Repr, DecidableEq

def SLIDING_WINDOW_SIZE : Nat := 60

def SLIDING_WINDOW_OVERLAP : Nat := 15

def MAX_CHUNK_LINES : Nat := 150

def MIN_CHUNK_LINES : Nat := 3

/-- `safe(·)` of `makeChunkId`: replace every character outside
`[a-zA-Z0-9]` by `_` (the JS regex `/[^a-zA-Z0-9]/g`). -/
def safeId (s : String) : String :=
  String.mk (s.data.map fun c => if c.isAlphanum then c else '_')

/-- `makeChunkId` from `astChunker.ts`. -/
def makeChunkId (repoId filePath : String) (startLine : Nat) : String :=
  safeId repoId ++ "__" ++ safeId filePath ++ "__L" ++ toString startLine

/-- `content.split("\n")` of `chunkFile`. -/
def splitLines (content : String) : List String :=
  splitOnChar '\n' content

/-- The loop body of `slidingWindowChunk`: `i` is the 0-based window start,
`chunkIndex` the running chunk counter.  Mirrors the `for` loop with its
`continue` (window shorter than `MIN_CHUNK_LINES`) and final `break`. -/
def slidingWindowChunkAux (repoId filePath language : String)
    (lines : List String) : Nat → Nat → Nat → List CodeChunk
  | 0, _, _ => []
  | fuel + 1, i, chunkIndex =>
    if i < lines.length then
      let startLine := i + 1
      let endLine := min (i + SLIDING_WINDOW_SIZE) lines.length
      let chunkLines := (lines.drop i).take (endLine - i)
      if chunkLines.length < MIN_CHUNK_LINES then
        slidingWindowChunkAux repoId filePath language lines fuel
          (i + (SLIDING_WINDOW_SIZE - SLIDING_WINDOW_OVERLAP)) chunkIndex
      else
        let c : CodeChunk :=
          { id := makeChunkId repoId filePath startLine
            repoId := repoId
            filePath := filePath
            language := language
            content := joinSep "\n" chunkLines
            startLine := startLine
            endLine := endLine
            symbolName := none
            chunkIndex := chunkIndex }
        if lines.length ≤ endLine then [c]
        else c :: slidingWindowChunkAux repoId filePath language lines fuel
          (i + (SLIDING_WINDOW_SIZE - SLIDING_WINDOW_OVERLAP)) (chunkIndex + 1)
    else []

/-- `slidingWindowChunk` from `astChunker.ts`. -/
def slidingWindowChunk (repoId filePath : String) (lines : List String)
    (language : String) : List CodeChunk :=
  slidingWindowChunkAux repoId filePath language lines (lines.length + 1) 0 0

/-- `SymbolBoundary` from `astChunker.ts`. -/
structure SymbolBoundary where
  startLine : Nat
  symbolName : String
  deriving Repr, DecidableEq

/-- `detectSymbolBoundaries`: scan the lines with a symbol matcher.  The
matcher parameter plays the role of the regex argument `re`; it returns the
symbol name (`match[1] || match[2] || match[3] || "anonymous"`) on a match. -/
def detectSymbolBoundaries (matchSym : String → Option String)
    (lines : List String) : List SymbolBoundary :=
  lines.enum.filterMap fun p =>
    (matchSym p.2).map fun nm => { startLine := p.1 + 1, symbolName := nm }

/-- The sub-window loop of `splitIfTooLarge` (the case where the block
exceeds `MAX_CHUNK_LINES`); `count` is `subChunks.length` so far. -/
def splitLargeAux (repoId filePath language : String) (chunkLines : List String)
    (blockStartLine : Nat) (symbolName : String) (baseIndex : Nat) :
    Nat → Nat → Nat → List CodeChunk
  | 0, _, _ => []
  | fuel + 1, i, count =>
    if i < chunkLines.length then
      let slice := (chunkLines.drop i).take MAX_CHUNK_LINES
      if slice.length < MIN_CHUNK_LINES then []
      else
        let startLine := blockStartLine + i
        let c : CodeChunk :=
          { id := makeChunkId repoId filePath startLine
            repoId := repoId
            filePath := filePath
            language := language
            content := joinSep "\n" slice
            startLine := startLine
            endLine := startLine + slice.length - 1
            symbolName := some (symbolName ++ " [part " ++ toString (count + 1) ++ "]")
            chunkIndex := baseIndex + count }
        if chunkLines.length ≤ i + MAX_CHUNK_LINES then [c]
        else c :: splitLargeAux repoId filePath language chunkLines
          blockStartLine symbolName baseIndex fuel
          (i + (MAX_CHUNK_LINES - SLIDING_WINDOW_OVERLAP)) (count + 1)
    else []

/-- `splitIfTooLarge` from `astChunker.ts`. -/
def splitIfTooLarge (repoId filePath language : String) (chunkLines : List String)
    (blockStartLine : Nat) (symbolName : String) (baseIndex : Nat) : List CodeChunk :=
  if chunkLines.length < MIN_CHUNK_LINES then []
  else if chunkLines.length ≤ MAX_CHUNK_LINES then
    [{ id := makeChunkId repoId filePath blockStartLine
       repoId := repoId
       filePath := filePath
       language := language
       content := joinSep "\n" chunkLines
       startLine := blockStartLine
       endLine := blockStartLine + chunkLines.length - 1
       symbolName := some symbolName
       chunkIndex := baseIndex }]
  else
    splitLargeAux repoId filePath language chunkLines blockStartLine symbolName
      baseIndex (chunkLines.length + 1) 0 0

/-- The per-boundary loop shared by `chunkTypeScript` and `chunkPython`:
block `i` runs from its boundary's start line to one line before the next
boundary (or to EOF). -/
def symbolBlocksAux (repoId filePath language : String) (lines : List String) :
    List SymbolBoundary → Nat → List CodeChunk
  | [], _ => []
  | b :: rest, i =>
    let endLine := match rest with
      | next :: _ => next.startLine - 1
      | [] => lines.length
    let chunkLines := (lines.drop (b.startLine - 1)).take (endLine - (b.startLine - 1))
    splitIfTooLarge repoId filePath language chunkLines b.startLine b.symbolName i
      ++ symbolBlocksAux repoId filePath language lines rest (i + 1)

/-- The common shape of `chunkTypeScript` and `chunkPython`: detect symbol
boundaries with the given matcher, then emit each block (empty result when
no symbol matched). -/
def chunkSymbolAware (matchSym : String → Option String) (language : String)
    (repoId filePath : String) (lines : List String) : List CodeChunk :=
  let symbolBoundaries := detectSymbolBoundaries matchSym lines
  if symbolBoundaries.length = 0 then []
  else symbolBlocksAux repoId filePath language lines symbolBoundaries 0

/-! ### The symbol-start regexes, as explicit anchored parsers

`TS_SYMBOL_START_RE` and `PY_SYMBOL_START_RE` are start-anchored (`^`)
regexes over one line.  They are translated into parsers over `List Char`;
`Option.orElse` realises the left-to-right alternation and the
backtracking of the optional groups.  Greedy sub-matches (`\s+`, `\w+`,
`[^)]*`) never need shortening here because each is followed by a token
its own character class cannot start, so maximal munch is exact. -/

/-- JS `\s` (the whitespace characters that can occur in a line once the
file has been split on `"\n"`). -/
def jsSpace (c : Char) : Bool :=
  c = ' ' ∨ c = '\t' ∨ c = '\n' ∨ c = '\r' ∨ c = '\x0b' ∨ c = '\x0c'

/-- JS `\w`. -/
def jsWord (c : Char) : Bool :=
  c.isAlphanum ∨ c = '_'

/-- Match a literal token. -/
def stripLit : List Char → List Char → Option (List Char)
  | [], cs => some cs
  | t :: ts, c :: cs => if c = t then stripLit ts cs else none
  | _ :: _, [] => none

/-- `\s+` (greedy). -/
def ws1 (cs : List Char) : Option (List Char) :=
  match cs with
  | c :: rest => if jsSpace c then some (rest.dropWhile jsSpace) else none
  | [] => none

/-- `\s*` (greedy). -/
def wsStar (cs : List Char) : List Char :=
  cs.dropWhile jsSpace

/-- `(\w+)` (greedy), returning the capture. -/
def word1 (cs : List Char) : Option (String × List Char) :=
  match cs with
  | c :: _ =>
    if jsWord c then
      some (String.mk (cs.takeWhile jsWord), cs.dropWhile jsWord)
    else none
  | [] => none

def expectChar (c : Char) : List Char → Option (List Char)
  | c' :: cs => if c' = c then some cs else none
  | [] => none

/-- An optional group `(?:tok\s+)?`, with backtracking into the
continuation `k`. -/
def optPrefix (tok : String) (cs : List Char) (k : List Char → Option String) :
    Option String :=
  match (stripLit tok.data cs).bind ws1 with
  | some rest => (k rest).orElse fun _ => k cs
  | none => k cs

/-- `(?:\([^)]*\)|[\w]+)` of the arrow-function alternative. -/
def parenOrWord (cs : List Char) : Option (List Char) :=
  (match cs with
   | '(' :: rest => expectChar ')' (rest.dropWhile (fun c => ¬ c = ')'))
   | _ => none).orElse
  fun _ => (word1 cs).map Prod.snd

/-- Tail of the arrow alternative after the captured name:
`\s*=\s*(?:async\s+)?(?:\([^)]*\)|[\w]+)\s*=>`. -/
def tsArrowTail (cs : List Char) : Option Unit := do
  let cs ← expectChar '=' (wsStar cs)
  let cs := wsStar cs
  let finish (cs : List Char) : Option Unit := do
    let cs ← parenOrWord cs
    let cs ← expectChar '=' (wsStar cs)
    let _ ← expectChar '>' cs
    pure ()
  match (stripLit "async".data cs).bind ws1 with
  | some cs2 => (finish cs2).orElse fun _ => finish cs
  | none => finish cs

/-- The alternation of `TS_SYMBOL_START_RE`:
`function\*?\s+(\w+) | class\s+(\w+) | (?:const|let|var)\s+(\w+)… =>`. -/
def tsAlt (cs : List Char) : Option String :=
  (do
    let cs ← stripLit "function".data cs
    let cs := match cs with | '*' :: rest => rest | _ => cs
    let cs ← ws1 cs
    let (nm, _) ← word1 cs
    pure nm).orElse fun _ =>
  (do
    let cs ← stripLit "class".data cs
    let cs ← ws1 cs
    let (nm, _) ← word1 cs
    pure nm).orElse fun _ =>
  (do
    let cs ← ((stripLit "const".data cs).orElse fun _ =>
      (stripLit "let".data cs).orElse fun _ => stripLit "var".data cs)
    let cs ← ws1 cs
    let (nm, cs) ← word1 cs
    let _ ← tsArrowTail cs
    pure nm)

/-- `TS_SYMBOL_START_RE` applied to one line (start-anchored match with
the symbol name extracted from the capture groups). -/
def tsMatchLine (line : String) : Option String :=
  optPrefix "export" line.data fun cs1 =>
    optPrefix "default" cs1 fun cs2 =>
      optPrefix "async" cs2 fun cs3 => tsAlt cs3

/-- `PY_SYMBOL_START_RE = /^(?:async\s+)?(?:def|class)\s+(\w+)/` applied
to one line. -/
def pyMatchLine (line : String) : Option String :=
  optPrefix "async" line.data fun cs =>
    (do
      let cs ← stripLit "def".data cs
      let cs ← ws1 cs
      let (nm, _) ← word1 cs
      pure nm).orElse fun _ =>
    (do
      let cs ← stripLit "class".data cs
      let cs ← ws1 cs
      let (nm, _) ← word1 cs
      pure nm)

/-- `chunkTypeScript` from `astChunker.ts`. -/
def chunkTypeScript (repoId filePath : String) (lines : List String) : List CodeChunk :=
  chunkSymbolAware tsMatchLine "typescript" repoId filePath lines

/-- `chunkPython` from `astChunker.ts`. -/
def chunkPython (repoId filePath : String) (lines : List String) : List CodeChunk :=
  chunkSymbolAware pyMatchLine "python" repoId filePath lines

/-! ### `chunkFile` -/

/-- Node's `path.extname`: the substring of the basename from its last
`.`, empty when the basename has no dot or only a leading dot. -/
def extname (p : String) : String :=
  let base := ((splitOnChar '/' p).getLastD "")
  let cs := base.data
  match (cs.enum.filter fun q => q.2 = '.').getLast? with
  | some (j, _) => if j = 0 then "" else String.mk (cs.drop j)
  | none => ""

/-- `detectLanguage` from `astChunker.ts`: the fixed extension map. -/
def detectLanguage (ext : String) : String :=
  if ext = ".ts" then "typescript"
  else if ext = ".tsx" then "typescript"
  else if ext = ".js" then "javascript"
  else if ext = ".jsx" then "javascript"
  else if ext = ".mjs" then "javascript"
  else if ext = ".py" then "python"
  else if ext = ".md" then "markdown"
  else if ext = ".mdx" then "markdown"
  else if ext = ".json" then "json"
  else if ext = ".yaml" then "yaml"
  else if ext = ".yml" then "yaml"
  else if ext = ".toml" then "toml"
  else "text"

/-- `chunkFile` from `astChunker.ts`: dispatch on the extension, then fall
back to a sliding window when the symbol-aware pass produced nothing. -/
def chunkFile (repoId filePath content : String) : ChunkingResult :=
  let ext := lowerStr (extname filePath)
  let lines := splitLines content
  let withStrategy : List CodeChunk × String :=
    if ext = ".ts" ∨ ext = ".tsx" ∨ ext = ".js" ∨ ext = ".jsx" ∨ ext = ".mjs" then
      (chunkTypeScript repoId filePath lines, "ast")
    else if ext = ".py" then
      (chunkPython repoId filePath lines, "ast")
    else
      (slidingWindowChunk repoId filePath lines "text", "sliding-window")
  let chunks := withStrategy.1
  if chunks.length = 0 then
    let fallback := slidingWindowChunk repoId filePath lines (detectLanguage ext)
    { chunks := fallback, totalChunks := fallback.length, strategy := "sliding-window" }
  else
    { chunks := chunks, totalChunks := chunks.length, strategy := withStrategy.2 }

/-- `chunkFiles` from `astChunker.ts`. -/
def chunkFiles (repoId : String) (files : List (String × String)) : List CodeChunk :=
  files.flatMap fun file => (chunkFile repoId file.1 file.2).chunks

/-! ## Claim C2: chunk-size bounds -/

/-- The spec's chunk-size bound: `3 ≤ endLine - startLine + 1 ≤ 150`
(with the subtraction made safe by requiring `startLine ≤ endLine`). -/
def chunkSizeOk (c : CodeChunk) : Prop :=
  c.startLine ≤ c.endLine ∧ 3 ≤ c.endLine + 1 - c.startLine ∧
    c.endLine + 1 - c.startLine ≤ 150

def isSymbolExt (ext : String) : Prop :=
  ext = ".ts" ∨ ext = ".tsx" ∨ ext = ".js" ∨ ext = ".jsx" ∨ ext = ".mjs" ∨ ext = ".py"

instance (ext : String) : Decidable (isSymbolExt ext) := by
  unfold isSymbolExt; infer_instance

/-! ## Claim C6: chunk-id determinism and collisions -/

/-! ### Injectivity of the decimal representation used in chunk ids -/
def msdDigits (n : Nat) : List Nat :=
  if _h : n < 10 then [n]
  else msdDigits (n / 10) ++ [n % 10]
  decreasing_by exact Nat.div_lt_self (by omega) (by omega)

/-! ## Claim C3: the file filter -/

/-! ## File filter (`fileFilter.ts`) -/

/-- `RawFile` from `githubFetcher.ts`. -/
structure RawFile where
  path : String
  content : String
  sizeBytes : Nat
  deriving Repr, DecidableEq

def SUPPORTED_EXTENSIONS : List String :=
  [".ts", ".tsx", ".js", ".jsx", ".mjs", ".cjs", ".py",
   ".md", ".mdx", ".json", ".yaml", ".yml", ".toml"]

def IGNORED_PATHS : List String :=
  ["node_modules", ".pnp", "vendor", "venv", ".venv", "env", "__pypackages__",
   "dist", "build", "out", ".next", ".nuxt", ".output", ".cache",
   "__pycache__", ".pytest_cache", "*.egg-info",
   ".git", ".svn", ".hg", ".idea", ".vscode",
   "coverage", ".nyc_output", "htmlcov",
   "tmp", "temp", "logs"]

def IGNORED_FILENAMES : List String :=
  ["package-lock.json", "yarn.lock", "pnpm-lock.yaml", "poetry.lock",
   "Pipfile.lock", "composer.lock", ".DS_Store", "Thumbs.db",
   ".env", ".env.local", ".env.production",
   ".gitignore", ".gitattributes", ".editorconfig", ".prettierrc",
   ".eslintrc", ".eslintrc.js", ".eslintrc.json",
   "jest.config.js", "jest.config.ts", "vitest.config.ts"]

def MAX_FILE_SIZE_BYTES : Nat := 500 * 1024

def MIN_FILE_SIZE_BYTES : Nat := 10

/-- Return type of `shouldIndex`:
`{ index: true } | { index: false; reason: string }`. -/
inductive IndexVerdict where
  | index : IndexVerdict
  | skip (reason : String) : IndexVerdict
  deriving Repr, DecidableEq

/-- `(file.sizeBytes / 1024).toFixed(1)`: division by 1024 is exact in
double precision, and `toFixed(1)` rounds to the nearest tenth, ties up. -/
def formatKB1 (bytes : Nat) : String :=
  let tenths := (bytes * 10 + 512) / 1024
  toString (tenths / 10) ++ "." ++ toString (tenths % 10)

/-- `file.path.split("/").pop() ?? ""` of `shouldIndex`. -/
def fileBasename (f : RawFile) : String :=
  (splitOnChar '/' f.path).getLastD ""

/-- The extension as `shouldIndex` computes it:
`filename.includes(".") ? "." + filename.split(".").pop()!.toLowerCase() : ""`. -/
def fileExt (f : RawFile) : String :=
  let filename := fileBasename f
  if containsChar filename '.' then
    "." ++ lowerStr ((splitOnChar '.' filename).getLastD "")
  else ""

/-- `shouldIndex` from `fileFilter.ts`: the five checks in source order. -/
def shouldIndex (file : RawFile) : IndexVerdict :=
  let filename := fileBasename file
  let ext := fileExt file
  let pathParts := splitOnChar '/' file.path
  match pathParts.dropLast.find? (fun part => IGNORED_PATHS.contains part) with
  | some part => .skip ("ignored directory: " ++ part)
  | none =>
    if IGNORED_FILENAMES.contains filename then
      .skip ("ignored filename: " ++ filename)
    else if ¬ SUPPORTED_EXTENSIONS.contains ext then
      .skip ("unsupported extension: " ++ ext)
    else if MAX_FILE_SIZE_BYTES < file.sizeBytes then
      .skip ("too large: " ++ formatKB1 file.sizeBytes ++ "KB")
    else if file.sizeBytes < MIN_FILE_SIZE_BYTES then
      .skip ("too small: " ++ toString file.sizeBytes ++ " bytes")
    else if containsChar file.content '\x00' then
      .skip "binary file detected"
    else .index

/-- `FilterResult` from `fileFilter.ts`; a rejection entry is
`(path, reason)`. -/
structure FilterResult where
  accepted : List RawFile
  rejected : List (String × String)
  deriving Repr, DecidableEq

/-- `filterFiles` from `fileFilter.ts`. -/
def filterFiles : List RawFile → FilterResult
  | [] => { accepted := [], rejected := [] }
  | f :: rest =>
    let r := filterFiles rest
    match shouldIndex f with
    | .index => { accepted := f :: r.accepted, rejected := r.rejected }
    | .skip reason => { accepted := r.accepted, rejected := (f.path, reason) :: r.rejected }

/-! ### The five acceptance rules, as the claim states them -/

/-- Rule 1: no path segment excluding the final basename is denylisted. -/
def ruleDirOk (f : RawFile) : Prop :=
  ∀ part ∈ (splitOnChar '/' f.path).dropLast, part ∉ IGNORED_PATHS

/-- Rule 2: the basename is not denylisted. -/
def ruleNameOk (f : RawFile) : Prop :=
  fileBasename f ∉ IGNORED_FILENAMES

/-- Rule 3: the extension is allowlisted. -/
def ruleExtOk (f : RawFile) : Prop :=
  fileExt f ∈ SUPPORTED_EXTENSIONS

/-- Rule 4: `10 ≤ sizeBytes ≤ 512000`. -/
def ruleSizeOk (f : RawFile) : Prop :=
  10 ≤ f.sizeBytes ∧ f.sizeBytes ≤ 512000

/-- Rule 5: the content contains no NUL byte. -/
def ruleTextOk (f : RawFile) : Prop :=
  ¬ containsChar f.content '\x00'

instance (f : RawFile) : Decidable (ruleDirOk f) := by unfold ruleDirOk; infer_instance

instance (f : RawFile) : Decidable (ruleNameOk f) := by unfold ruleNameOk; infer_instance

instance (f : RawFile) : Decidable (ruleExtOk f) := by unfold ruleExtOk; infer_instance

instance (f : RawFile) : Decidable (ruleSizeOk f) := by unfold ruleSizeOk; infer_instance

instance (f : RawFile) : Decidable (ruleTextOk f) := by unfold ruleTextOk; infer_instance

def passesAllRules (f : RawFile) : Prop :=
  ruleDirOk f ∧ ruleNameOk f ∧ ruleExtOk f ∧ ruleSizeOk f ∧ ruleTextOk f

instance (f : RawFile) : Decidable (passesAllRules f) := by
  unfold passesAllRules; infer_instance

/-- The index (1–5) of the first rule, in the claim's order, that `f`
violates. -/
def firstFailingRule (f : RawFile) : Option Nat :=
  if ¬ ruleDirOk f then some 1
  else if ¬ ruleNameOk f then some 2
  else if ¬ ruleExtOk f then some 3
  else if ¬ ruleSizeOk f then some 4
  else if ¬ ruleTextOk f then some 5
  else none

/-- Which reason strings `shouldIndex` records for a violation of rule
`k`. -/
def reasonForRule (f : RawFile) : Nat → String → Prop
  | 1, r => ∃ part, r = "ignored directory: " ++ part ∧ part ∈ IGNORED_PATHS ∧
      part ∈ (splitOnChar '/' f.path).dropLast
  | 2, r => r = "ignored filename: " ++ fileBasename f
  | 3, r => r = "unsupported extension: " ++ fileExt f
  | 4, r => r = "too large: " ++ formatKB1 f.sizeBytes ++ "KB" ∨
      r = "too small: " ++ toString f.sizeBytes ++ " bytes"
  | 5, r => r = "binary file detected"
  | _, _ => False

/-! ## Vector store writer (`writeToVectorStore` and friends)

The `code_chunks` and `repo_index` tables are modelled as lists of rows
keyed by their primary keys (`id`, `repo_id`); Prisma/SQL operations
become list transformations with the same row-level semantics.  The
row-wise reading of `ON CONFLICT` matches Postgres when the ids inside a
single statement are distinct (Postgres raises an error when
`DO UPDATE` would touch a row twice, which the relevant theorems exclude
by hypothesis). -/

/-- `RepoMeta` from `githubFetcher.ts`. -/
structure RepoMeta where
  owner : String
  repo : String
  defaultBranch : String
  sizeKB : Nat
  fileCount : Nat
  usedFallback : Bool
  deriving Repr, DecidableEq

/-- `EmbeddedChunk`.  Modelled from the spec: the embedding engine module
is not among the sources; the spec's data model gives
`(chunk, embedding: float[D], embeddedAt)`.  Embedding entries are
modelled as integers (no claim depends on their values) and the timestamp
as a `Nat`. -/
structure EmbeddedChunk where
  chunk : CodeChunk
  embedding : List Int
  embeddedAt : Nat
  deriving Repr, DecidableEq

/-- `WriteOptions` from the vector-store writer. -/
structure WriteOptions where
  repoMeta : RepoMeta
  commitHash : Option String
  embeddingModel : String
  deriving Repr, DecidableEq

/-- `WriteResult` from the vector-store writer (durations are reported as
`0`; time is modelled as a single instant). -/
structure WriteResult where
  repoId : String
  strategy : String
  chunksWritten : Nat
  chunksDeleted : Nat
  durationMs : Nat
  deriving Repr, DecidableEq

/-- A row of the `repo_index` table. -/
structure RepoIndexRow where
  repoId : String
  commitHash : Option String
  defaultBranch : String
  sizeKB : Nat
  fileCount : Nat
  chunkCount : Nat
  embeddingModel : String
  updatedAt : Nat
  deriving Repr, DecidableEq

/-- A row of the `code_chunks` table; `embedding` holds the pgvector
textual form actually written (`'[a,b,c]'`). -/
structure StoredChunk where
  id : String
  repoId : String
  filePath : String
  language : String
  content : String
  startLine : Nat
  endLine : Nat
  symbolName : Option String
  chunkIndex : Nat
  embedding : String
  embeddedAt : Nat
  deriving Repr, DecidableEq

/-- The vector store: both tables. -/
structure Store where
  repoIndex : List RepoIndexRow
  codeChunks : List StoredChunk
  deriving Repr, DecidableEq

/-- `db.repoIndex.findUnique({ where: { repoId } })`. -/
def repoIndexFindUnique (db : Store) (repoId : String) : Option RepoIndexRow :=
  db.repoIndex.find? fun row => row.repoId == repoId

/-- `db.codeChunk.deleteMany({ where: { repoId } })`, returning the new
store and the deleted count. -/
def codeChunkDeleteMany (db : Store) (repoId : String) : Store × Nat :=
  let kept := db.codeChunks.filter fun c => !(c.repoId == repoId)
  ({ db with codeChunks := kept }, db.codeChunks.length - kept.length)

/-- Prisma `repoIndex.upsert`: update the row with this `repoId` if one
exists, otherwise insert the `create` row. -/
def repoIndexUpsert (db : Store) (repoId : String) (createRow : RepoIndexRow)
    (updateRow : RepoIndexRow → RepoIndexRow) : Store :=
  if db.repoIndex.any (fun row => row.repoId == repoId) then
    { db with repoIndex := db.repoIndex.map fun row =>
        if row.repoId == repoId then updateRow row else row }
  else
    { db with repoIndex := db.repoIndex ++ [createRow] }

/-- pgvector textual form: `` `[${e.embedding.join(",")}]` ``. -/
def vectorText (embedding : List Int) : String :=
  "[" ++ joinSep "," (embedding.map toString) ++ "]"

/-- The column values inserted for one embedded chunk. -/
def toStoredChunk (e : EmbeddedChunk) : StoredChunk :=
  { id := e.chunk.id
    repoId := e.chunk.repoId
    filePath := e.chunk.filePath
    language := e.chunk.language
    content := e.chunk.content
    startLine := e.chunk.startLine
    endLine := e.chunk.endLine
    symbolName := e.chunk.symbolName
    chunkIndex := e.chunk.chunkIndex
    embedding := vectorText e.embedding
    embeddedAt := e.embeddedAt }

/-- One row of the batched `INSERT … ON CONFLICT (id)`: `DO NOTHING`
when `upsert` is false, otherwise
`DO UPDATE SET content, embedding, embedded_at`. -/
def insertChunkRow (db : Store) (e : EmbeddedChunk) (upsert : Bool) : Store :=
  if db.codeChunks.any (fun c => c.id == e.chunk.id) then
    if upsert then
      { db with codeChunks := db.codeChunks.map fun c =>
          if c.id == e.chunk.id then
            { c with content := e.chunk.content,
                     embedding := vectorText e.embedding,
                     embeddedAt := e.embeddedAt }
          else c }
    else db
  else { db with codeChunks := db.codeChunks ++ [toStoredChunk e] }

/-- `batchInsertChunks`: the row semantics of the batched inserts.
`totalInserted` adds `batch.length` per batch regardless of conflicts, so
the count returned is the number of rows passed. -/
def batchInsertChunks (db : Store) (embedded : List EmbeddedChunk) (upsert : Bool) :
    Store × Nat :=
  (embedded.foldl (fun acc e => insertChunkRow acc e upsert) db, embedded.length)

/-- The `create` argument of the `repoIndex.upsert` inside `fullReindex`. -/
def fullReindexCreateRow (repoId : String) (options : WriteOptions)
    (chunksWritten now : Nat) : RepoIndexRow :=
  { repoId := repoId
    commitHash := options.commitHash
    defaultBranch := options.repoMeta.defaultBranch
    sizeKB := options.repoMeta.sizeKB
    fileCount := options.repoMeta.fileCount
    chunkCount := chunksWritten
    embeddingModel := options.embeddingModel
    updatedAt := now }

/-- The `update` argument of the `repoIndex.upsert` inside `fullReindex`. -/
def fullReindexUpdateRow (options : WriteOptions) (chunksWritten now : Nat)
    (row : RepoIndexRow) : RepoIndexRow :=
  { row with commitHash := options.commitHash
             sizeKB := options.repoMeta.sizeKB
             fileCount := options.repoMeta.fileCount
             chunkCount := chunksWritten
             embeddingModel := options.embeddingModel
             updatedAt := now }

/-- Strategy A: `fullReindex`. -/
def fullReindex (db : Store) (repoId : String) (embedded : List EmbeddedChunk)
    (options : WriteOptions) (now : Nat) : Store × WriteResult :=
  let del : Store × Nat :=
    match repoIndexFindUnique db repoId with
    | some _ => codeChunkDeleteMany db repoId
    | none => (db, 0)
  let ins := batchInsertChunks del.1 embedded false
  let db3 := repoIndexUpsert ins.1 repoId
    (fullReindexCreateRow repoId options ins.2 now)
    (fullReindexUpdateRow options ins.2 now)
  (db3, { repoId := repoId, strategy := "full-reindex", chunksWritten := ins.2,
          chunksDeleted := del.2, durationMs := 0 })

/-- The `create` argument of the `repoIndex.upsert` inside
`upsertChunks` (strategy B). -/
def upsertCreateRow (repoId : String) (options : WriteOptions)
    (chunksWritten now : Nat) : RepoIndexRow :=
  { repoId := repoId
    commitHash := none
    defaultBranch := options.repoMeta.defaultBranch
    sizeKB := options.repoMeta.sizeKB
    fileCount := options.repoMeta.fileCount
    chunkCount := chunksWritten
    embeddingModel := options.embeddingModel
    updatedAt := now }

/-- The `update` argument of the `repoIndex.upsert` inside
`upsertChunks` (it does not touch `commitHash`). -/
def upsertUpdateRow (options : WriteOptions) (chunksWritten now : Nat)
    (row : RepoIndexRow) : RepoIndexRow :=
  { row with chunkCount := chunksWritten
             embeddingModel := options.embeddingModel
             updatedAt := now }

def upsertChunks (db : Store) (repoId : String) (embedded : List EmbeddedChunk)
    (options : WriteOptions) (now : Nat) : Store × WriteResult :=
  let ins := batchInsertChunks db embedded true
  let db2 := repoIndexUpsert ins.1 repoId
    (upsertCreateRow repoId options ins.2 now)
    (upsertUpdateRow options ins.2 now)
  (db2, { repoId := repoId, strategy := "upsert", chunksWritten := ins.2,
          chunksDeleted := 0, durationMs := 0 })

/-- `` `${options.repoMeta.owner}/${options.repoMeta.repo}` ``. -/
def writeRepoId (options : WriteOptions) : String :=
  options.repoMeta.owner ++ "/" ++ options.repoMeta.repo

/-- `writeToVectorStore`.  `if (options.commitHash)` is JS truthiness, so
an absent or empty commit hash falls through to the upsert path;
`existing?.commitHash === options.commitHash` is the skip test. -/
def writeToVectorStore (db : Store) (embedded : List EmbeddedChunk)
    (options : WriteOptions) (now : Nat) : Store × WriteResult :=
  let repoId := writeRepoId options
  match options.commitHash with
  | some h =>
    if h = "" then upsertChunks db repoId embedded options now
    else
      match repoIndexFindUnique db repoId with
      | some existing =>
        if existing.commitHash = some h then
          (db, { repoId := repoId, strategy := "skipped", chunksWritten := 0,
                 chunksDeleted := 0, durationMs := 0 })
        else fullReindex db repoId embedded options now
      | none => fullReindex db repoId embedded options now
  | none => upsertChunks db repoId embedded options now

/-! Concrete sample data for the vector-store witnesses. -/
def sampleChunk : CodeChunk :=
  { id := "o_r__a_ts__L1", repoId := "o/r", filePath := "a.ts",
    language := "typescript", content := "x", startLine := 1, endLine := 3,
    symbolName := none, chunkIndex := 0 }

def sampleEmbedded : EmbeddedChunk :=
  { chunk := sampleChunk, embedding := [1, 0], embeddedAt := 3 }

def sampleMeta : RepoMeta :=
  { owner := "o", repo := "r", defaultBranch := "main", sizeKB := 1,
    fileCount := 1, usedFallback := false }

def sampleOptsHash : WriteOptions :=
  { repoMeta := sampleMeta, commitHash := some "abc", embeddingModel := "m" }

def sampleOptsNoHash : WriteOptions :=
  { repoMeta := sampleMeta, commitHash := none, embeddingModel := "m" }

def sampleRow : RepoIndexRow :=
  { repoId := "o/r", commitHash := some "abc", defaultBranch := "main",
    sizeKB := 1, fileCount := 1, chunkCount := 1, embeddingModel := "m",
    updatedAt := 0 }

def sampleOldChunk : StoredChunk :=
  { id := "old", repoId := "o/r", filePath := "b.ts", language := "typescript",
    content := "y", startLine := 1, endLine := 3, symbolName := none,
    chunkIndex := 0, embedding := "[1]", embeddedAt := 0 }

def sampleStoreIndexed : Store :=
  { repoIndex := [sampleRow], codeChunks := [sampleOldChunk] }

/-! ## GitHub URL parser (`githubFetcher.ts`) -/

/-- Longest prefix of `l` strictly before the first occurrence of `pat`
(`none` when `pat` does not occur): the leftmost-match search of the JS
regex engine for a literal pattern. -/
def splitBeforeFirst (pat : List Char) : List Char → Option (List Char)
  | [] => if pat.isPrefixOf ([] : List Char) then some [] else none
  | c :: cs =>
    if pat.isPrefixOf (c :: cs) then some []
    else (splitBeforeFirst pat cs).map fun pre => c :: pre

/-- `url.replace(/\.git$/, "")`. -/
def stripGitSuffix (s : String) : String :=
  if ".git".data.isSuffixOf s.data then String.mk (s.data.take (s.data.length - 4))
  else s

/-- `….replace(/\/tree\/.*$/, "")`: delete everything from the first
`/tree/` on (`.*$` greedily eats the rest of the string). -/
def stripTreeSuffix (s : String) : String :=
  match splitBeforeFirst "/tree/".data s.data with
  | some pre => String.mk pre
  | none => s

/-- One anchored attempt of `github\.com\/([^/]+)\/([^/]+)` at the head
of `l`.  `[^/]+` is greedy; its continuation (`/`, then at least one
non-`/`) cannot start with a character the class accepts, so maximal
munch is exact. -/
def matchOwnerRepoHere (l : List Char) : Option (String × String) := do
  let rest ← stripLit "github.com/".data l
  let owner := rest.takeWhile fun c => ¬ c = '/'
  if owner.isEmpty then none
  else
    match rest.dropWhile fun c => ¬ c = '/' with
    | '/' :: rest2 =>
      let repo := rest2.takeWhile fun c => ¬ c = '/'
      if repo.isEmpty then none
      else some (String.mk owner, String.mk repo)
    | _ => none

/-- The left-to-right scan of `cleaned.match(re)`: try every start
position in order. -/
def findOwnerRepo : List Char → Option (String × String)
  | [] => none
  | c :: cs => (matchOwnerRepoHere (c :: cs)).orElse fun _ => findOwnerRepo cs

/-- `parseGitHubUrl` from `githubFetcher.ts`; the thrown `Error` is
modelled as `Except.error`. -/
def parseGitHubUrl (url : String) : Except String (String × String) :=
  let cleaned := stripTreeSuffix (stripGitSuffix url)
  match findOwnerRepo cleaned.data with
  | some p => .ok p
  | none => .error ("Invalid GitHub URL: " ++ url)

/-! ## Job processor (`indexRepoJob.ts`)

`processIndexRepoJob` is asynchronous orchestration; its external calls
are modelled as explicitly passed data: the repository metadata fetch
(`defaultBranch`, `repoSizeKB`), the tolerant commit-hash fetch
(`commitHash`, `none` on failure), the ingestion pipeline's output, the
embedding engine as a function, and the vector store as a `Store` value.
A thrown exception (e.g. the URL parse of phase 1) is `Except.error`;
progress reporting and wall-clock durations are not modelled. -/

/-- `IngestionStats` from `ingestionPipeline.ts`. -/
structure IngestionStats where
  totalFilesFound : Nat
  filesAccepted : Nat
  filesRejected : Nat
  totalChunks : Nat
  usedCloneFallback : Bool
  durationMs : Nat
  deriving Repr, DecidableEq

/-- `IngestionOutput` from `ingestionPipeline.ts`. -/
structure IngestionOutput where
  repoId : String
  chunks : List CodeChunk
  stats : IngestionStats
  deriving Repr, DecidableEq

/-- The result of `embedChunks` (modelled from the spec: the embedding
engine module is not among the sources; the job reads its `embedded` list
and `model` name). -/
structure EmbedResult where
  embedded : List EmbeddedChunk
  model : String
  deriving Repr, DecidableEq

/-- `IndexRepoJobResult` from `indexRepoJob.ts`. -/
structure IndexRepoJobResult where
  repoId : String
  strategy : String
  chunksWritten : Nat
  totalDurationMs : Nat
  deriving Repr, DecidableEq

/-- `processIndexRepoJob`: phase 1 parses the URL, phase 2's ingestion
result decides the empty-corpus early return, phases 3–4 embed and write. -/
def processIndexRepoJob (githubUrl defaultBranch : String) (repoSizeKB : Nat)
    (commitHash : Option String) (ingestionResult : IngestionOutput)
    (embedFn : List CodeChunk → EmbedResult) (db : Store) (now : Nat) :
    Except String (Store × IndexRepoJobResult) :=
  match parseGitHubUrl githubUrl with
  | .error e => .error e
  | .ok (owner, repo) =>
    if ingestionResult.chunks.length = 0 then
      .ok (db, { repoId := ingestionResult.repoId, strategy := "skipped",
                 chunksWritten := 0, totalDurationMs := 0 })
    else
      let er := embedFn ingestionResult.chunks
      let wr := writeToVectorStore db er.embedded
        { repoMeta :=
            { owner := owner, repo := repo, defaultBranch := defaultBranch,
              sizeKB := repoSizeKB,
              fileCount := ingestionResult.stats.filesAccepted,
              usedFallback := ingestionResult.stats.usedCloneFallback }
          commitHash := commitHash
          embeddingModel := er.model } now
      .ok (wr.1, { repoId := ingestionResult.repoId, strategy := wr.2.strategy,
                   chunksWritten := wr.2.chunksWritten, totalDurationMs := 0 })

/-! ## Context assembler (`contextAssembler.ts`)

`citationMap` is a JS object written once per citation key; it is
modelled as the association list of its entries in insertion order.
String lengths feeding the character budget are counted in characters
(JS counts UTF-16 units; they agree on the ASCII text at issue, and no
claim depends on the budget's arithmetic). -/

/-- `RetrievedChunk` (modelled from the spec: the retriever module is not
among the sources; `score ∈ [0,1]` is not read by the assembler and is
modelled as an integer). -/
structure RetrievedChunk where
  filePath : String
  startLine : Nat
  endLine : Nat
  symbolName : Option String
  content : String
  language : String
  score : Int
  deriving Repr, DecidableEq

/-- `Citation` from `contextAssembler.ts`. -/
structure Citation where
  filePath : String
  startLine : Nat
  endLine : Nat
  symbolName : Option String
  deriving Repr, DecidableEq

/-- `AssembledContext` from `contextAssembler.ts`. -/
structure AssembledContext where
  systemPrompt : String
  userPrompt : String
  citationMap : List (String × Citation)
  tokenEstimate : Nat
  deriving Repr, DecidableEq

def MAX_CONTEXT_CHARS : Nat := 12000

/-- Stable insertion for `sortByStartLine`: place `x` before the first
element whose `startLine` exceeds it. -/
def insertByStartLine (x : RetrievedChunk) : List RetrievedChunk → List RetrievedChunk
  | [] => [x]
  | y :: ys =>
    if y.startLine < x.startLine then y :: insertByStartLine x ys
    else x :: y :: ys

/-- `arr.sort((a, b) => a.startLine - b.startLine)`: the JS sort is
stable and ascending; a stable insertion sort produces the same list, as
the stable ascending order is unique. -/
def sortByStartLine (l : List RetrievedChunk) : List RetrievedChunk :=
  l.foldr insertByStartLine []

/-- `groupByFile`: group by `filePath` in first-appearance order, then
sort each group by `startLine`. -/
def groupByFile (chunks : List RetrievedChunk) : List (String × List RetrievedChunk) :=
  let grouped := chunks.foldl (fun acc c =>
    if acc.any (fun p => p.1 == c.filePath) then
      acc.map fun p => if p.1 == c.filePath then (p.1, p.2 ++ [c]) else p
    else acc ++ [(c.filePath, [c])]) []
  grouped.map fun p => (p.1, sortByStartLine p.2)

/-- The citation key `` `[${citationIndex}]` ``. -/
def citationKeyOf (idx : Nat) : String :=
  "[" ++ toString idx ++ "]"

/-- The `citationMap` entry recorded for a chunk. -/
def citationOf (chunk : RetrievedChunk) : Citation :=
  { filePath := chunk.filePath, startLine := chunk.startLine,
    endLine := chunk.endLine, symbolName := chunk.symbolName }

/-- The chunk header: `` `${key} \`${symbolName}\` (lines S–E)` `` when
`chunk.symbolName` is truthy (present and nonempty), else
`` `${key} lines S–E` ``. -/
def chunkHeaderOf (idx : Nat) (chunk : RetrievedChunk) : String :=
  let plain := citationKeyOf idx ++ " lines " ++ toString chunk.startLine ++ "–"
    ++ toString chunk.endLine
  match chunk.symbolName with
  | some s =>
    if s = "" then plain
    else citationKeyOf idx ++ " `" ++ s ++ "` (lines " ++ toString chunk.startLine
      ++ "–" ++ toString chunk.endLine ++ ")"
  | none => plain

/-- The full chunk block: header plus fenced code. -/
def chunkBlockOf (idx : Nat) (chunk : RetrievedChunk) : String :=
  chunkHeaderOf idx chunk ++ "\n```" ++ chunk.language ++ "\n"
    ++ chunk.content ++ "\n```"

/-- The inner loop over one file's chunks: returns the emitted chunk
blocks, the citation entries, and the updated `citationIndex` and
`totalChars`.  The budget test sits at the top of each iteration. -/
def assembleFileChunks : List RetrievedChunk → Nat → Nat →
    List String × List (String × Citation) × Nat × Nat
  | [], idx, chars => ([], [], idx, chars)
  | chunk :: rest, idx, chars =>
    if MAX_CONTEXT_CHARS < chars then ([], [], idx, chars)
    else
      let block := chunkBlockOf idx chunk
      let next := assembleFileChunks rest (idx + 1) (chars + block.length)
      (block :: next.1, (citationKeyOf idx, citationOf chunk) :: next.2.1,
        next.2.2.1, next.2.2.2)

/-- The outer loop over the file groups; every group contributes its
`### File:` header even after the budget is exhausted. -/
def assembleGroups : List (String × List RetrievedChunk) → Nat → Nat →
    List String × List (String × Citation) × Nat × Nat
  | [], idx, chars => ([], [], idx, chars)
  | g :: rest, idx, chars =>
    let inner := assembleFileChunks g.2 idx chars
    let fileBlock := joinSep "\n\n" (("### File: `" ++ g.1 ++ "`") :: inner.1)
    let outer := assembleGroups rest inner.2.2.1 inner.2.2.2
    (fileBlock :: outer.1, inner.2.1 ++ outer.2.1, outer.2.2.1, outer.2.2.2)

/-- `buildSystemPrompt` from `contextAssembler.ts`. -/
def buildSystemPrompt (repoId : String) : String :=
  "You are a code intelligence assistant for the repository `" ++ repoId ++ "`.\n\nYour job is to answer developer questions about this codebase accurately and concisely.\n\nRULES:\n1. Answer ONLY using the code context provided below. Do not use outside knowledge.\n2. Always cite your sources using the [N] citation markers provided.\n3. Include exact file paths and line numbers in your answer.\n4. If the context does not contain enough information to answer, say so clearly — do not guess.\n5. Format code references using backticks.\n6. Keep answers concise. Developers want facts, not essays."

/-- `buildUserPrompt` from `contextAssembler.ts`. -/
def buildUserPrompt (query contextSection : String) : String :=
  "## Codebase Context\n\n" ++ contextSection
    ++ "\n\n---\n\n## Question\n\n" ++ query
    ++ "\n\n## Answer (cite sources with [N] markers)"

/-- `assembleContext` from `contextAssembler.ts`. -/
def assembleContext (query : String) (chunks : List RetrievedChunk)
    (repoId : String) : AssembledContext :=
  let grouped := groupByFile chunks
  let asm := assembleGroups grouped 1 0
  let contextSection := joinSep "\n\n---\n\n" asm.1
  let systemPrompt := buildSystemPrompt repoId
  let userPrompt := buildUserPrompt query contextSection
  { systemPrompt := systemPrompt
    userPrompt := userPrompt
    citationMap := asm.2.1
    tokenEstimate := (systemPrompt.length + userPrompt.length + 3) / 4 }

/-- The `(citationIndex, chunk)` pairs that receive a citation, in
emission order (the loop of `assembleFileChunks` stripped to its
bookkeeping). -/
def emittedFileChunks : List RetrievedChunk → Nat → Nat → List (Nat × RetrievedChunk)
  | [], _, _ => []
  | chunk :: rest, idx, chars =>
    if MAX_CONTEXT_CHARS < chars then []
    else (idx, chunk) :: emittedFileChunks rest (idx + 1)
      (chars + (chunkBlockOf idx chunk).length)

/-- All emitted `(citationIndex, chunk)` pairs across the groups. -/
def emittedGroups : List (String × List RetrievedChunk) → Nat → Nat →
    List (Nat × RetrievedChunk)
  | [], _, _ => []
  | g :: rest, idx, chars =>
    emittedFileChunks g.2 idx chars ++
      emittedGroups rest (assembleFileChunks g.2 idx chars).2.2.1
        (assembleFileChunks g.2 idx chars).2.2.2

/-- The emitted citations of `assembleContext`. -/
def emittedCitations (chunks : List RetrievedChunk) : List (Nat × RetrievedChunk) :=
  emittedGroups (groupByFile chunks) 1 0

def sampleRetrieved : RetrievedChunk :=
  { filePath := "a.ts", startLine := 1, endLine := 3, symbolName := some "foo",
    content := "x", language := "typescript", score := 1 }

/-- Modelled from the spec: a valid GitHub owner (user or organisation)
name — nonempty, ASCII letters, digits and hyphens. -/
def validOwner (o : String) : Prop :=
  o ≠ "" ∧ ∀ c ∈ o.data, c.isAlphanum ∨ c = '-'

/-- Modelled from the spec: a valid GitHub repository name — nonempty,
ASCII letters, digits, `-`, `_`, `.`, and GitHub rejects names ending in
`.git`. -/
def validRepo (r : String) : Prop :=
  r ≠ "" ∧ (∀ c ∈ r.data, c.isAlphanum ∨ c = '-' ∨ c = '_' ∨ c = '.') ∧
    ¬ ".git".data.isSuffixOf r.data

instance (o : String) : Decidable (validOwner o) := by
  unfold validOwner; infer_instance

instance (r : String) : Decidable (validRepo r) := by
  unfold validRepo; infer_instance

/-- Modelled from the spec: the claim's phrase "a URL containing a
`github.com/<owner>/<repo>` form" — somewhere in the string, the literal
`github.com/`, then a nonempty slash-free owner, a `/`, and at least one
further non-slash character starting the repo name. -/
def hasOwnerRepoForm (url : String) : Prop :=
  ∃ pre o c rest, url.data = pre ++ ("github.com/".data ++ (o ++ '/' :: c :: rest)) ∧
    o ≠ [] ∧ ('/' : Char) ∉ o ∧ ¬ c = '/'

/-! # Theorems -/

theorem slidingWindowChunkAux_bounds
    (repoId filePath language : String) (lines : List String) :
    ∀ fuel i ci c, c ∈ slidingWindowChunkAux repoId filePath language lines fuel i ci →
      chunkSizeOk c := by
  intro fuel
  induction fuel with
  | zero => intro i ci c h; simp [slidingWindowChunkAux] at h
  | succ fuel ih =>
    intro i ci c h
    simp only [slidingWindowChunkAux] at h
    split at h
    case isTrue hi =>
      set endLine := min (i + SLIDING_WINDOW_SIZE) lines.length with hEnd
      have hlen : ((lines.drop i).take (endLine - i)).length = endLine - i := by
        simp only [List.length_take, List.length_drop]
        simp only [hEnd, SLIDING_WINDOW_SIZE]
        omega
      split at h
      case isTrue hshort => exact ih _ _ _ h
      case isFalse hlong =>
        rw [hlen] at hlong
        have h3 : 3 ≤ endLine - i := by
          simp only [MIN_CHUNK_LINES] at hlong; omega
        have h60 : endLine ≤ i + 60 := by
          simp only [hEnd, SLIDING_WINDOW_SIZE]; omega
        split at h
        case isTrue hbreak =>
          simp only [List.mem_singleton] at h
          subst h
          refine ⟨?_, ?_, ?_⟩ <;> simp only [] <;> omega
        case isFalse hmore =>
          rcases List.mem_cons.mp h with h | h
          · subst h
            refine ⟨?_, ?_, ?_⟩ <;> simp only [] <;> omega
          · exact ih _ _ _ h
    case isFalse hi => simp at h

theorem splitLargeAux_bounds
    (repoId filePath language : String) (chunkLines : List String)
    (blockStartLine : Nat) (symbolName : String) (baseIndex : Nat) :
    ∀ fuel i count c,
      c ∈ splitLargeAux repoId filePath language chunkLines blockStartLine
            symbolName baseIndex fuel i count →
      chunkSizeOk c := by
  intro fuel
  induction fuel with
  | zero => intro i count c h; simp [splitLargeAux] at h
  | succ fuel ih =>
    intro i count c h
    simp only [splitLargeAux] at h
    split at h
    case isTrue hi =>
      have hlen : ((chunkLines.drop i).take MAX_CHUNK_LINES).length
          = min MAX_CHUNK_LINES (chunkLines.length - i) := by
        simp [List.length_take, List.length_drop]
      split at h
      case isTrue hshort => simp at h
      case isFalse hlong =>
        rw [hlen] at hlong
        have h3 : 3 ≤ min MAX_CHUNK_LINES (chunkLines.length - i) := by
          simp only [MIN_CHUNK_LINES] at hlong; omega
        have h150 : min MAX_CHUNK_LINES (chunkLines.length - i) ≤ 150 := by
          simp only [MAX_CHUNK_LINES]; omega
        split at h
        case isTrue hbreak =>
          simp only [List.mem_singleton] at h
          subst h
          refine ⟨?_, ?_, ?_⟩ <;> simp only [hlen] <;> omega
        case isFalse hmore =>
          rcases List.mem_cons.mp h with h | h
          · subst h
            refine ⟨?_, ?_, ?_⟩ <;> simp only [hlen] <;> omega
          · exact ih _ _ _ h
    case isFalse hi => simp at h

theorem splitIfTooLarge_bounds
    (repoId filePath language : String) (chunkLines : List String)
    (blockStartLine : Nat) (symbolName : String) (baseIndex : Nat) (c : CodeChunk)
    (h : c ∈ splitIfTooLarge repoId filePath language chunkLines blockStartLine
          symbolName baseIndex) :
    chunkSizeOk c := by
  simp only [splitIfTooLarge] at h
  split at h
  case isTrue => simp at h
  case isFalse hmin =>
    split at h
    case isTrue hmax =>
      simp only [List.mem_singleton] at h
      subst h
      simp only [MIN_CHUNK_LINES] at hmin
      simp only [MAX_CHUNK_LINES] at hmax
      refine ⟨?_, ?_, ?_⟩ <;> simp only [] <;> omega
    case isFalse hmax =>
      exact splitLargeAux_bounds _ _ _ _ _ _ _ _ _ _ _ h

theorem symbolBlocksAux_bounds
    (repoId filePath language : String) (lines : List String) :
    ∀ bs i c, c ∈ symbolBlocksAux repoId filePath language lines bs i →
      chunkSizeOk c := by
  intro bs
  induction bs with
  | nil => intro i c h; simp [symbolBlocksAux] at h
  | cons b rest ih =>
    intro i c h
    simp only [symbolBlocksAux, List.mem_append] at h
    rcases h with h | h
    · exact splitIfTooLarge_bounds _ _ _ _ _ _ _ _ h
    · exact ih _ _ h

theorem chunkSymbolAware_bounds (matchSym : String → Option String)
    (language repoId filePath : String) (lines : List String) (c : CodeChunk)
    (h : c ∈ chunkSymbolAware matchSym language repoId filePath lines) :
    chunkSizeOk c := by
  simp only [chunkSymbolAware] at h
  split at h
  · simp at h
  · exact symbolBlocksAux_bounds _ _ _ _ _ _ _ h

/-- C2: every chunk emitted by `chunkFile` — under the symbol-aware and
the sliding-window strategies, sub-chunks of oversized symbol blocks
included — spans between `MIN_CHUNK_LINES = 3` and `MAX_CHUNK_LINES = 150`
lines inclusive. -/
theorem chunkFile_size_bounds (repoId filePath content : String) (c : CodeChunk)
    (h : c ∈ (chunkFile repoId filePath content).chunks) :
    c.startLine ≤ c.endLine ∧ 3 ≤ c.endLine + 1 - c.startLine ∧
      c.endLine + 1 - c.startLine ≤ 150 := by
  have : chunkSizeOk c := by
    simp only [chunkFile] at h
    split at h <;>
      [skip; split at h] <;>
      (try split at h) <;>
      simp only [List.mem_cons] at h <;>
      first
        | exact slidingWindowChunkAux_bounds _ _ _ _ _ _ _ _ h
        | exact chunkSymbolAware_bounds _ _ _ _ _ _ h
  exact this

/-- Witness for C2 at a concrete input. -/
theorem chunkFile_size_bounds_witness :
    ({ id := "o_r__README_md__L1", repoId := "o/r", filePath := "README.md",
       language := "text", content := "a\nb\nc", startLine := 1, endLine := 3,
       symbolName := none, chunkIndex := 0 } : CodeChunk) ∈
        (chunkFile "o/r" "README.md" "a\nb\nc").chunks ∧
      ((1 : Nat) ≤ 3 ∧ 3 ≤ 3 + 1 - 1 ∧ 3 + 1 - 1 ≤ 150) :=
  ⟨by decide, chunkFile_size_bounds "o/r" "README.md" "a\nb\nc"
    { id := "o_r__README_md__L1", repoId := "o/r", filePath := "README.md",
      language := "text", content := "a\nb\nc", startLine := 1, endLine := 3,
      symbolName := none, chunkIndex := 0 } (by decide)⟩

theorem slidingWindowChunkAux_language
    (repoId filePath language : String) (lines : List String) :
    ∀ fuel i ci c, c ∈ slidingWindowChunkAux repoId filePath language lines fuel i ci →
      c.language = language := by
  intro fuel
  induction fuel with
  | zero => intro i ci c h; simp [slidingWindowChunkAux] at h
  | succ fuel ih =>
    intro i ci c h
    simp only [slidingWindowChunkAux] at h
    split at h
    case isTrue hi =>
      split at h
      case isTrue => exact ih _ _ _ h
      case isFalse =>
        split at h
        case isTrue =>
          simp only [List.mem_singleton] at h; subst h; rfl
        case isFalse =>
          rcases List.mem_cons.mp h with h | h
          · subst h; rfl
          · exact ih _ _ _ h
    case isFalse => simp at h

theorem slidingWindowChunkAux_length_indep
    (repoId filePath : String) (l₁ l₂ : String) (lines : List String) :
    ∀ fuel i ci₁ ci₂,
      (slidingWindowChunkAux repoId filePath l₁ lines fuel i ci₁).length =
        (slidingWindowChunkAux repoId filePath l₂ lines fuel i ci₂).length := by
  intro fuel
  induction fuel with
  | zero => intro i ci₁ ci₂; simp [slidingWindowChunkAux]
  | succ fuel ih =>
    intro i ci₁ ci₂
    simp only [slidingWindowChunkAux]
    split
    case isTrue hi =>
      split
      case isTrue => exact ih _ _ _
      case isFalse =>
        split
        case isTrue => rfl
        case isFalse => simp only [List.length_cons]; rw [ih]
    case isFalse => rfl

theorem chunkFile_nonSymbol_language (repoId filePath content : String)
    (hext : ¬ isSymbolExt (lowerStr (extname filePath))) :
    ∀ c ∈ (chunkFile repoId filePath content).chunks, c.language = "text" := by
  intro c h
  have h5 : ¬ (lowerStr (extname filePath) = ".ts" ∨ lowerStr (extname filePath) = ".tsx" ∨
      lowerStr (extname filePath) = ".js" ∨ lowerStr (extname filePath) = ".jsx" ∨
      lowerStr (extname filePath) = ".mjs") := by
    intro he; exact hext (by unfold isSymbolExt; tauto)
  have hpy : ¬ lowerStr (extname filePath) = ".py" := by
    intro he; exact hext (by unfold isSymbolExt; tauto)
  simp only [chunkFile] at h
  rw [if_neg h5, if_neg hpy] at h
  split at h
  case isTrue hzero =>
    exfalso
    have h' : c ∈ slidingWindowChunkAux repoId filePath
        (detectLanguage (lowerStr (extname filePath)))
        (splitLines content) ((splitLines content).length + 1) 0 0 := h
    have hind := slidingWindowChunkAux_length_indep repoId filePath
      (detectLanguage (lowerStr (extname filePath))) "text"
      (splitLines content) ((splitLines content).length + 1) 0 0 0
    have hnil : (slidingWindowChunkAux repoId filePath
        (detectLanguage (lowerStr (extname filePath)))
        (splitLines content) ((splitLines content).length + 1) 0 0).length = 0 := by
      rw [hind]
      simpa [slidingWindowChunk] using hzero
    rw [List.length_eq_zero] at hnil
    rw [hnil] at h'
    simp at h'
  case isFalse =>
    have h' : c ∈ slidingWindowChunkAux repoId filePath "text"
        (splitLines content) ((splitLines content).length + 1) 0 0 := h
    exact slidingWindowChunkAux_language _ _ _ _ _ _ _ _ h'

/-- C4 counterexample: a `.md` file is mapped to `markdown` by the fixed
extension map, yet the chunk emitted for it carries language `text` —
`chunkFile` passes the literal `"text"` to the sliding window and consults
`detectLanguage` only in the empty-fallback path. -/
theorem chunkFile_md_language_counterexample :
    (chunkFile "o/r" "README.md" "a\nb\nc").chunks.map (fun c => c.language)
        = ["text"] ∧
      detectLanguage ".md" = "markdown" ∧ ("text" : String) ≠ "markdown" := by
  refine ⟨by decide, by decide, by decide⟩

/-- Witness for the amended C4 at a concrete input. -/
theorem chunkFile_nonSymbol_language_witness :
    ¬ isSymbolExt (lowerStr (extname "README.md")) ∧
      ({ id := "o_r__README_md__L1", repoId := "o/r", filePath := "README.md",
         language := "text", content := "a\nb\nc", startLine := 1, endLine := 3,
         symbolName := none, chunkIndex := 0 } : CodeChunk).language = "text" :=
  ⟨by decide, chunkFile_nonSymbol_language "o/r" "README.md" "a\nb\nc" (by decide)
    { id := "o_r__README_md__L1", repoId := "o/r", filePath := "README.md",
      language := "text", content := "a\nb\nc", startLine := 1, endLine := 3,
      symbolName := none, chunkIndex := 0 } (by decide)⟩

/-- C5: evaluation of `chunkFile` at the failing input.  Line 1 holds a
symbol block of a single line (skipped for being under `MIN_CHUNK_LINES`),
so the only emitted chunk — the first in emission order — carries
`chunkIndex = 1`, not `0`: `chunkTypeScript` passes the boundary position,
not the emission position, as the base index. -/
theorem chunkFile_chunkIndex_gap :
    (chunkFile "o/r" "a.ts" "function a()\nfunction b()\nx\ny").chunks.map
        (fun c => c.chunkIndex) = [1] := by
  decide

/-- C6 counterexample: two distinct `(filePath, startLine)` pairs of the
same repository whose chunks get the same id — `safe(·)` collapses
`"a.ts"` and `"a-ts"` to `"a_ts"`. -/
theorem chunkId_cross_file_collision :
    (chunkFile "o/r" "a.ts" "function f()\nx\ny").chunks.map (fun c => c.id)
        = ["o_r__a_ts__L1"] ∧
      (chunkFile "o/r" "a-ts" "x\ny\nz").chunks.map (fun c => c.id)
        = ["o_r__a_ts__L1"] ∧
      (chunkFile "o/r" "a.ts" "function f()\nx\ny").chunks.map (fun c => c.startLine)
        = [1] ∧
      (chunkFile "o/r" "a-ts" "x\ny\nz").chunks.map (fun c => c.startLine)
        = [1] ∧
      ("a.ts" : String) ≠ "a-ts" := by
  refine ⟨by decide, by decide, by decide, by decide, by decide⟩

theorem msdDigits_decode (n : Nat) :
    (msdDigits n).foldl (fun a d => 10 * a + d) 0 = n := by
  induction n using Nat.strong_induction_on with
  | _ n ih =>
    rw [msdDigits]
    split
    case isTrue h => simp
    case isFalse h =>
      rw [List.foldl_append]
      rw [ih (n / 10) (Nat.div_lt_self (by omega) (by omega))]
      simp [Nat.div_add_mod]

theorem msdDigits_lt_ten (n : Nat) : ∀ d ∈ msdDigits n, d < 10 := by
  induction n using Nat.strong_induction_on with
  | _ n ih =>
    rw [msdDigits]
    split
    case isTrue h => simpa using h
    case isFalse h =>
      intro d hd
      rcases List.mem_append.mp hd with hd | hd
      · exact ih (n / 10) (Nat.div_lt_self (by omega) (by omega)) d hd
      · simp at hd; omega

theorem digitChar_inj : ∀ d₁ < 10, ∀ d₂ < 10, Nat.digitChar d₁ = Nat.digitChar d₂ → d₁ = d₂ := by
  decide

theorem map_digitChar_inj : ∀ l₁ l₂ : List Nat, (∀ d ∈ l₁, d < 10) → (∀ d ∈ l₂, d < 10) →
    l₁.map Nat.digitChar = l₂.map Nat.digitChar → l₁ = l₂ := by
  intro l₁
  induction l₁ with
  | nil => intro l₂ _ _ hm; cases l₂ <;> simp_all
  | cons a l ih =>
    intro l₂ h₁ h₂ h
    cases l₂ with
    | nil => simp at h
    | cons b m =>
      simp only [List.map_cons, List.cons.injEq] at h
      have ha := digitChar_inj a (h₁ a (by simp)) b (h₂ b (by simp)) h.1
      subst ha
      rw [ih m (fun d hd => h₁ d (by simp [hd])) (fun d hd => h₂ d (by simp [hd])) h.2]

theorem toDigitsCore_eq_msd : ∀ fuel n ds, n < fuel →
    Nat.toDigitsCore 10 fuel n ds = (msdDigits n).map Nat.digitChar ++ ds := by
  intro fuel
  induction fuel with
  | zero => omega
  | succ fuel ih =>
    intro n ds hn
    rw [Nat.toDigitsCore]
    split
    case isTrue h0 =>
      have hlt : n < 10 := by omega
      rw [msdDigits, dif_pos hlt]
      have : n % 10 = n := Nat.mod_eq_of_lt hlt
      simp [this]
    case isFalse h0 =>
      have hge : 10 ≤ n := by
        by_contra hc
        push_neg at hc
        exact h0 (Nat.div_eq_of_lt (by omega))
      have hnn : n / 10 < n := Nat.div_lt_self (by omega) (by omega)
      have hrec : n / 10 < fuel := by omega
      rw [ih (n / 10) _ hrec]
      conv_rhs => rw [msdDigits]
      rw [dif_neg (by omega)]
      simp

theorem natToString_inj (m n : Nat) (h : toString m = toString n) : m = n := by
  have hr : ∀ k : Nat, toString k = ((msdDigits k).map Nat.digitChar).asString := by
    intro k
    show (Nat.toDigits 10 k).asString = _
    rw [Nat.toDigits, toDigitsCore_eq_msd (k + 1) k [] (by omega)]
    simp
  rw [hr m, hr n] at h
  have hl : (msdDigits m).map Nat.digitChar = (msdDigits n).map Nat.digitChar := by
    have := congrArg String.data h
    simpa [List.asString] using this
  have := map_digitChar_inj _ _ (msdDigits_lt_ten m) (msdDigits_lt_ten n) hl
  calc m = (msdDigits m).foldl (fun a d => 10 * a + d) 0 := (msdDigits_decode m).symm
    _ = (msdDigits n).foldl (fun a d => 10 * a + d) 0 := by rw [this]
    _ = n := msdDigits_decode n

theorem makeChunkId_inj_startLine (repoId filePath : String) (s₁ s₂ : Nat)
    (h : makeChunkId repoId filePath s₁ = makeChunkId repoId filePath s₂) :
    s₁ = s₂ := by
  apply natToString_inj
  apply String.ext
  have hd := congrArg String.data h
  simp only [makeChunkId, String.data_append] at hd
  exact List.append_cancel_left hd

theorem slidingWindowChunkAux_shape
    (repoId filePath language : String) (lines : List String) :
    ∀ fuel i ci c, c ∈ slidingWindowChunkAux repoId filePath language lines fuel i ci →
      c.id = makeChunkId repoId filePath c.startLine ∧ i + 1 ≤ c.startLine := by
  intro fuel
  induction fuel with
  | zero => intro i ci c h; simp [slidingWindowChunkAux] at h
  | succ fuel ih =>
    intro i ci c h
    simp only [slidingWindowChunkAux] at h
    split at h
    case isTrue hi =>
      split at h
      case isTrue =>
        rcases ih _ _ _ h with ⟨h1, h2⟩
        refine ⟨h1, by simp only [SLIDING_WINDOW_SIZE, SLIDING_WINDOW_OVERLAP] at h2; omega⟩
      case isFalse =>
        split at h
        case isTrue =>
          simp only [List.mem_singleton] at h; subst h
          exact ⟨rfl, le_refl _⟩
        case isFalse =>
          rcases List.mem_cons.mp h with h | h
          · subst h; exact ⟨rfl, le_refl _⟩
          · rcases ih _ _ _ h with ⟨h1, h2⟩
            refine ⟨h1, by simp only [SLIDING_WINDOW_SIZE, SLIDING_WINDOW_OVERLAP] at h2; omega⟩
    case isFalse => simp at h

theorem slidingWindowChunkAux_sorted
    (repoId filePath language : String) (lines : List String) :
    ∀ fuel i ci, (slidingWindowChunkAux repoId filePath language lines fuel i ci).Pairwise
      (fun c₁ c₂ => c₁.startLine < c₂.startLine) := by
  intro fuel
  induction fuel with
  | zero => intro i ci; simp [slidingWindowChunkAux]
  | succ fuel ih =>
    intro i ci
    simp only [slidingWindowChunkAux]
    split
    case isTrue hi =>
      split
      case isTrue => exact ih _ _
      case isFalse =>
        split
        case isTrue => simp
        case isFalse =>
          refine List.pairwise_cons.mpr ⟨?_, ih _ _⟩
          intro c hc
          have h2 := (slidingWindowChunkAux_shape repoId filePath language lines
            fuel _ _ c hc).2
          simp only [SLIDING_WINDOW_SIZE, SLIDING_WINDOW_OVERLAP] at h2 ⊢
          omega
    case isFalse => simp

theorem splitLargeAux_shape
    (repoId filePath language : String) (chunkLines : List String)
    (blockStartLine : Nat) (symbolName : String) (baseIndex : Nat) :
    ∀ fuel i count c,
      c ∈ splitLargeAux repoId filePath language chunkLines blockStartLine
            symbolName baseIndex fuel i count →
      c.id = makeChunkId repoId filePath c.startLine ∧
        blockStartLine + i ≤ c.startLine ∧
        c.startLine < blockStartLine + chunkLines.length := by
  intro fuel
  induction fuel with
  | zero => intro i count c h; simp [splitLargeAux] at h
  | succ fuel ih =>
    intro i count c h
    simp only [splitLargeAux] at h
    split at h
    case isTrue hi =>
      split at h
      case isTrue => simp at h
      case isFalse =>
        split at h
        case isTrue =>
          simp only [List.mem_singleton] at h; subst h
          exact ⟨rfl, le_refl _, by simp only []; omega⟩
        case isFalse =>
          rcases List.mem_cons.mp h with h | h
          · subst h; exact ⟨rfl, le_refl _, by simp only []; omega⟩
          · rcases ih _ _ _ h with ⟨h1, h2, h3⟩
            refine ⟨h1, ?_, h3⟩
            simp only [MAX_CHUNK_LINES, SLIDING_WINDOW_OVERLAP] at h2
            omega
    case isFalse => simp at h

theorem splitLargeAux_sorted
    (repoId filePath language : String) (chunkLines : List String)
    (blockStartLine : Nat) (symbolName : String) (baseIndex : Nat) :
    ∀ fuel i count,
      (splitLargeAux repoId filePath language chunkLines blockStartLine
        symbolName baseIndex fuel i count).Pairwise
          (fun c₁ c₂ => c₁.startLine < c₂.startLine) := by
  intro fuel
  induction fuel with
  | zero => intro i count; simp [splitLargeAux]
  | succ fuel ih =>
    intro i count
    simp only [splitLargeAux]
    split
    case isTrue hi =>
      split
      case isTrue => simp
      case isFalse =>
        split
        case isTrue => simp
        case isFalse =>
          refine List.pairwise_cons.mpr ⟨?_, ih _ _⟩
          intro c hc
          have h2 := (splitLargeAux_shape repoId filePath language chunkLines
            blockStartLine symbolName baseIndex fuel _ _ c hc).2.1
          simp only [MAX_CHUNK_LINES, SLIDING_WINDOW_OVERLAP] at h2 ⊢
          omega
    case isFalse => simp

theorem splitIfTooLarge_shape
    (repoId filePath language : String) (chunkLines : List String)
    (blockStartLine : Nat) (symbolName : String) (baseIndex : Nat) (c : CodeChunk)
    (h : c ∈ splitIfTooLarge repoId filePath language chunkLines blockStartLine
          symbolName baseIndex) :
    c.id = makeChunkId repoId filePath c.startLine ∧
      blockStartLine ≤ c.startLine ∧
      c.startLine < blockStartLine + chunkLines.length := by
  simp only [splitIfTooLarge] at h
  split at h
  case isTrue => simp at h
  case isFalse hmin =>
    split at h
    case isTrue hmax =>
      simp only [List.mem_singleton] at h; subst h
      refine ⟨rfl, le_refl _, ?_⟩
      simp only [MIN_CHUNK_LINES] at hmin
      simp only []
      omega
    case isFalse hmax =>
      rcases splitLargeAux_shape repoId filePath language chunkLines blockStartLine
        symbolName baseIndex _ _ _ c h with ⟨h1, h2, h3⟩
      exact ⟨h1, by omega, h3⟩

theorem splitIfTooLarge_sorted
    (repoId filePath language : String) (chunkLines : List String)
    (blockStartLine : Nat) (symbolName : String) (baseIndex : Nat) :
    (splitIfTooLarge repoId filePath language chunkLines blockStartLine
      symbolName baseIndex).Pairwise (fun c₁ c₂ => c₁.startLine < c₂.startLine) := by
  simp only [splitIfTooLarge]
  split
  case isTrue => simp
  case isFalse =>
    split
    case isTrue => simp
    case isFalse => exact splitLargeAux_sorted _ _ _ _ _ _ _ _ _ _

theorem symbolBlocksAux_id
    (repoId filePath language : String) (lines : List String) :
    ∀ bs i c, c ∈ symbolBlocksAux repoId filePath language lines bs i →
      c.id = makeChunkId repoId filePath c.startLine := by
  intro bs
  induction bs with
  | nil => intro i c h; simp [symbolBlocksAux] at h
  | cons b rest ih =>
    intro i c h
    simp only [symbolBlocksAux, List.mem_append] at h
    rcases h with h | h
    · exact (splitIfTooLarge_shape _ _ _ _ _ _ _ _ h).1
    · exact ih _ _ h

theorem symbolBlocksAux_lower
    (repoId filePath language : String) (lines : List String) :
    ∀ bs i c b₀, bs.Pairwise (fun b₁ b₂ => b₁.startLine < b₂.startLine) →
      c ∈ symbolBlocksAux repoId filePath language lines bs i →
      bs.head? = some b₀ → b₀.startLine ≤ c.startLine := by
  intro bs
  induction bs with
  | nil => intro i c b₀ _ h; simp [symbolBlocksAux] at h
  | cons b rest ih =>
    intro i c b₀ hsort h hhead
    simp only [List.head?_cons, Option.some.injEq] at hhead
    subst hhead
    simp only [symbolBlocksAux, List.mem_append] at h
    rcases h with h | h
    · exact (splitIfTooLarge_shape _ _ _ _ _ _ _ _ h).2.1
    · cases rest with
      | nil => simp [symbolBlocksAux] at h
      | cons next rest' =>
        have hnext := ih _ _ next (List.Pairwise.sublist (List.sublist_cons_self _ _) hsort) h rfl
        have hlt : b.startLine < next.startLine :=
          (List.pairwise_cons.mp hsort).1 next (by simp)
        omega

theorem symbolBlocksAux_sorted
    (repoId filePath language : String) (lines : List String) :
    ∀ bs i, bs.Pairwise (fun b₁ b₂ => b₁.startLine < b₂.startLine) →
      (∀ b ∈ bs, 1 ≤ b.startLine) →
      (symbolBlocksAux repoId filePath language lines bs i).Pairwise
        (fun c₁ c₂ => c₁.startLine < c₂.startLine) := by
  intro bs
  induction bs with
  | nil => intro i _ _; simp [symbolBlocksAux]
  | cons b rest ih =>
    intro i hsort hpos
    simp only [symbolBlocksAux]
    rw [List.pairwise_append]
    refine ⟨splitIfTooLarge_sorted _ _ _ _ _ _ _, ?_, ?_⟩
    · exact ih _ (List.Pairwise.sublist (List.sublist_cons_self _ _) hsort)
        (fun b' hb' => hpos b' (by simp [hb']))
    · intro a ha c hc
      cases rest with
      | nil => simp [symbolBlocksAux] at hc
      | cons next rest' =>
        have hup := (splitIfTooLarge_shape _ _ _ _ _ _ _ _ ha).2.2
        have hlow := symbolBlocksAux_lower repoId filePath language lines _ _ c next
          (List.Pairwise.sublist (List.sublist_cons_self _ _) hsort) hc rfl
        have hlt : b.startLine < next.startLine :=
          (List.pairwise_cons.mp hsort).1 next (by simp)
        have hpos_b : 1 ≤ b.startLine := hpos b (by simp)
        have hlen : ((lines.drop (b.startLine - 1)).take
            (next.startLine - 1 - (b.startLine - 1))).length ≤
            next.startLine - 1 - (b.startLine - 1) := by
          simp [List.length_take]
        simp only [] at hup
        omega

theorem detectSymbolBoundaries_sorted (matchSym : String → Option String)
    (lines : List String) :
    (detectSymbolBoundaries matchSym lines).Pairwise
      (fun b₁ b₂ => b₁.startLine < b₂.startLine) := by
  unfold detectSymbolBoundaries
  rw [List.pairwise_filterMap]
  have henum : (lines.enum).Pairwise (fun p q => p.1 < q.1) := by
    have hr := List.pairwise_lt_range lines.length
    rw [← List.enum_map_fst lines] at hr
    exact List.pairwise_map.mp hr
  refine henum.imp_of_mem ?_
  intro p q _ _ hpq b hb b' hb'
  simp only [Option.map_eq_some', Option.mem_def] at hb hb'
  rcases hb with ⟨nm, _, rfl⟩
  rcases hb' with ⟨nm', _, rfl⟩
  simpa using hpq

theorem detectSymbolBoundaries_pos (matchSym : String → Option String)
    (lines : List String) :
    ∀ b ∈ detectSymbolBoundaries matchSym lines, 1 ≤ b.startLine := by
  intro b hb
  simp only [detectSymbolBoundaries, List.mem_filterMap] at hb
  rcases hb with ⟨p, _, hp⟩
  simp only [Option.map_eq_some'] at hp
  rcases hp with ⟨nm, _, rfl⟩
  simp

theorem chunkSymbolAware_id (matchSym : String → Option String)
    (language repoId filePath : String) (lines : List String) (c : CodeChunk)
    (h : c ∈ chunkSymbolAware matchSym language repoId filePath lines) :
    c.id = makeChunkId repoId filePath c.startLine := by
  simp only [chunkSymbolAware] at h
  split at h
  · simp at h
  · exact symbolBlocksAux_id _ _ _ _ _ _ _ h

theorem chunkSymbolAware_sorted (matchSym : String → Option String)
    (language repoId filePath : String) (lines : List String) :
    (chunkSymbolAware matchSym language repoId filePath lines).Pairwise
      (fun c₁ c₂ => c₁.startLine < c₂.startLine) := by
  simp only [chunkSymbolAware]
  split
  · simp
  · exact symbolBlocksAux_sorted _ _ _ _ _ _
      (detectSymbolBoundaries_sorted _ _) (detectSymbolBoundaries_pos _ _)

/-- C6 (amended): chunk ids are deterministic — every chunk emitted by
`chunkFile` carries `id = makeChunkId repoId filePath startLine`, a pure
function of `(repoId, filePath, startLine)` — and collision-free within a
single file: distinct chunks emitted for one `(repoId, filePath)` always
have distinct ids. -/
theorem chunkFile_id_deterministic (repoId filePath content : String) :
    (∀ c ∈ (chunkFile repoId filePath content).chunks,
        c.id = makeChunkId repoId filePath c.startLine) ∧
      (chunkFile repoId filePath content).chunks.Pairwise
        (fun c₁ c₂ => c₁.id ≠ c₂.id) := by
  have hid : ∀ c ∈ (chunkFile repoId filePath content).chunks,
      c.id = makeChunkId repoId filePath c.startLine := by
    intro c h
    simp only [chunkFile] at h
    split at h <;>
      [skip; split at h] <;>
      (try split at h) <;>
      simp only [List.mem_cons] at h <;>
      first
        | exact (slidingWindowChunkAux_shape _ _ _ _ _ _ _ _ h).1
        | exact chunkSymbolAware_id _ _ _ _ _ _ h
  have hsorted : (chunkFile repoId filePath content).chunks.Pairwise
      (fun c₁ c₂ => c₁.startLine < c₂.startLine) := by
    simp only [chunkFile]
    split <;>
      [skip; split] <;>
      (try split) <;>
      first
        | exact slidingWindowChunkAux_sorted _ _ _ _ _ _ _
        | exact chunkSymbolAware_sorted _ _ _ _ _
  refine ⟨hid, ?_⟩
  refine hsorted.imp_of_mem ?_
  intro c₁ c₂ h₁ h₂ hlt heq
  rw [hid c₁ h₁, hid c₂ h₂] at heq
  have := makeChunkId_inj_startLine repoId filePath _ _ heq
  omega

/-- Witness for the amended C6 at a concrete input. -/
theorem chunkFile_id_deterministic_witness :
    ({ id := "o_r__README_md__L1", repoId := "o/r", filePath := "README.md",
       language := "text", content := "a\nb\nc", startLine := 1, endLine := 3,
       symbolName := none, chunkIndex := 0 } : CodeChunk) ∈
        (chunkFile "o/r" "README.md" "a\nb\nc").chunks ∧
      ("o_r__README_md__L1" : String) = makeChunkId "o/r" "README.md" 1 :=
  ⟨by decide, (chunkFile_id_deterministic "o/r" "README.md" "a\nb\nc").1
    { id := "o_r__README_md__L1", repoId := "o/r", filePath := "README.md",
      language := "text", content := "a\nb\nc", startLine := 1, endLine := 3,
      symbolName := none, chunkIndex := 0 } (by decide)⟩

/-- C3: `shouldIndex` accepts exactly the files satisfying all five rules;
a rejection records a reason matching the first failing rule in order; and
`filterFiles` partitions its input pointwise by `shouldIndex`. -/
theorem filterFiles_rules (files : List RawFile) (f : RawFile) :
    (shouldIndex f = .index ↔ passesAllRules f) ∧
      (∀ r, shouldIndex f = .skip r →
        ∃ k, firstFailingRule f = some k ∧ reasonForRule f k r) ∧
      (filterFiles files).accepted =
        files.filter (fun g => decide (shouldIndex g = .index)) ∧
      (filterFiles files).rejected = files.filterMap fun g =>
        match shouldIndex g with
        | .index => none
        | .skip r => some (g.path, r) := by
  have hdir : ∀ g : RawFile,
      ((splitOnChar '/' g.path).dropLast.find? (fun part => IGNORED_PATHS.contains part)
        = none) ↔ ruleDirOk g := by
    intro g
    rw [List.find?_eq_none]
    unfold ruleDirOk
    constructor
    · intro h part hp hmem
      exact (h part hp) (by simpa [List.elem_iff] using hmem)
    · intro h part hp hc
      exact (h part hp) (by simpa [List.elem_iff] using hc)
  refine ⟨?_, ?_, ?_, ?_⟩
  · -- acceptance iff all rules hold
    constructor
    · intro h
      simp only [shouldIndex] at h
      rcases hfind : (splitOnChar '/' f.path).dropLast.find?
          (fun part => IGNORED_PATHS.contains part) with _ | part
      · rw [hfind] at h
        split_ifs at h with h2 h3 h4 h5 h6 <;> try simp at h
        refine ⟨(hdir f).mp hfind, ?_, ?_, ?_, ?_⟩
        · unfold ruleNameOk
          simpa [List.elem_iff] using h2
        · unfold ruleExtOk
          rw [← List.elem_iff]
          exact h3
        · unfold ruleSizeOk
          simp only [MAX_FILE_SIZE_BYTES, MIN_FILE_SIZE_BYTES] at h4 h5
          omega
        · unfold ruleTextOk
          simpa using h6
      · rw [hfind] at h
        simp at h
    · intro hall
      rcases hall with ⟨h1, h2, h3, h4, h5⟩
      simp only [shouldIndex]
      rw [(hdir f).mpr h1]
      have hA : ¬ (IGNORED_FILENAMES.contains (fileBasename f) = true) := by
        unfold ruleNameOk at h2
        simpa [List.elem_iff] using h2
      have hB : ¬ ¬ (SUPPORTED_EXTENSIONS.contains (fileExt f) = true) := by
        unfold ruleExtOk at h3
        simp [List.elem_iff, h3]
      have hC : ¬ (MAX_FILE_SIZE_BYTES < f.sizeBytes) := by
        unfold ruleSizeOk at h4
        simp only [MAX_FILE_SIZE_BYTES]
        omega
      have hD : ¬ (f.sizeBytes < MIN_FILE_SIZE_BYTES) := by
        unfold ruleSizeOk at h4
        simp only [MIN_FILE_SIZE_BYTES]
        omega
      have hE : ¬ (containsChar f.content '\x00' = true) := by
        unfold ruleTextOk at h5
        simpa using h5
      rw [if_neg hA, if_neg hB, if_neg hC, if_neg hD, if_neg hE]
  · -- rejection reason matches the first failing rule
    intro r h
    simp only [shouldIndex] at h
    rcases hfind : (splitOnChar '/' f.path).dropLast.find?
        (fun part => IGNORED_PATHS.contains part) with _ | part
    · rw [hfind] at h
      have hd : ruleDirOk f := (hdir f).mp hfind
      have hd' : ¬ ¬ ruleDirOk f := not_not.mpr hd
      split_ifs at h with h2 h3 h4 h5 h6 <;>
        first
          | (simp only [IndexVerdict.skip.injEq] at h
             first
               | (refine ⟨2, ?_, h.symm⟩
                  unfold firstFailingRule
                  rw [if_neg hd', if_pos]
                  unfold ruleNameOk
                  simpa [List.elem_iff] using h2)
               | (refine ⟨3, ?_, h.symm⟩
                  have hn : ¬ ¬ ruleNameOk f := by
                    unfold ruleNameOk
                    simpa [List.elem_iff] using h2
                  unfold firstFailingRule
                  rw [if_neg hd', if_neg hn, if_pos]
                  unfold ruleExtOk
                  simpa [List.elem_iff] using h3)
               | (refine ⟨4, ?_, Or.inl h.symm⟩
                  have hn : ¬ ¬ ruleNameOk f := by
                    unfold ruleNameOk
                    simpa [List.elem_iff] using h2
                  have he : ¬ ¬ ruleExtOk f := by
                    unfold ruleExtOk
                    simp [List.elem_iff]
                    rw [← List.elem_iff]
                    exact h3
                  unfold firstFailingRule
                  rw [if_neg hd', if_neg hn, if_neg he, if_pos]
                  unfold ruleSizeOk
                  simp only [MAX_FILE_SIZE_BYTES] at h4
                  omega)
               | (refine ⟨4, ?_, Or.inr h.symm⟩
                  have hn : ¬ ¬ ruleNameOk f := by
                    unfold ruleNameOk
                    simpa [List.elem_iff] using h2
                  have he : ¬ ¬ ruleExtOk f := by
                    unfold ruleExtOk
                    simp [List.elem_iff]
                    rw [← List.elem_iff]
                    exact h3
                  unfold firstFailingRule
                  rw [if_neg hd', if_neg hn, if_neg he, if_pos]
                  unfold ruleSizeOk
                  simp only [MIN_FILE_SIZE_BYTES] at h5
                  omega)
               | (refine ⟨5, ?_, h.symm⟩
                  have hn : ¬ ¬ ruleNameOk f := by
                    unfold ruleNameOk
                    simpa [List.elem_iff] using h2
                  have he : ¬ ¬ ruleExtOk f := by
                    unfold ruleExtOk
                    simp [List.elem_iff]
                    rw [← List.elem_iff]
                    exact h3
                  have hs : ¬ ¬ ruleSizeOk f := by
                    unfold ruleSizeOk
                    simp only [MAX_FILE_SIZE_BYTES, MIN_FILE_SIZE_BYTES] at h4 h5
                    omega
                  unfold firstFailingRule
                  rw [if_neg hd', if_neg hn, if_neg he, if_neg hs, if_pos]
                  unfold ruleTextOk
                  simpa using h6))
          | simp at h
    · rw [hfind] at h
      simp only [IndexVerdict.skip.injEq] at h
      refine ⟨1, ?_, ?_⟩
      · unfold firstFailingRule
        rw [if_pos]
        unfold ruleDirOk
        push_neg
        have hmem := List.find?_some hfind
        have hin := List.mem_of_find?_eq_some hfind
        exact ⟨part, hin, by simpa [List.elem_iff] using hmem⟩
      · refine ⟨part, h.symm, ?_, List.mem_of_find?_eq_some hfind⟩
        have hmem := List.find?_some hfind
        simpa [List.elem_iff] using hmem
  · -- accepted files
    induction files with
    | nil => rfl
    | cons g rest ih =>
      simp only [filterFiles, List.filter_cons]
      rcases hg : shouldIndex g with _ | r
      · simp [hg, ih]
      · simp [hg, ih]
  · -- rejected files
    induction files with
    | nil => rfl
    | cons g rest ih =>
      simp only [filterFiles, List.filterMap_cons]
      rcases hg : shouldIndex g with _ | r
      · simp [hg, ih]
      · simp [hg, ih]

/-- Witness for C3 at concrete inputs: an accepted file and a file
rejected by the directory denylist. -/
theorem filterFiles_rules_witness :
    shouldIndex { path := "src/app.ts", content := "hello world", sizeBytes := 100 }
        = .index ∧
      (∃ k, firstFailingRule
          { path := "node_modules/x.js", content := "x", sizeBytes := 100 } = some k ∧
        reasonForRule { path := "node_modules/x.js", content := "x", sizeBytes := 100 }
          k "ignored directory: node_modules") :=
  ⟨(filterFiles_rules [] { path := "src/app.ts", content := "hello world", sizeBytes := 100 }).1.mpr
      (by decide),
   (filterFiles_rules [] { path := "node_modules/x.js", content := "x", sizeBytes := 100 }).2.1
      "ignored directory: node_modules" (by decide)⟩

/-- After a `repoIndexUpsert` keyed by `repoId`, lookup by `repoId` finds
either the `create` row or the updated image of a previously stored row
with that key. -/
theorem repoIndexFindUnique_upsert (db : Store) (repoId : String)
    (createRow : RepoIndexRow) (updateRow : RepoIndexRow → RepoIndexRow)
    (hc : createRow.repoId = repoId)
    (hu : ∀ row, (updateRow row).repoId = row.repoId) :
    ∃ row, repoIndexFindUnique (repoIndexUpsert db repoId createRow updateRow) repoId
        = some row ∧
      (row = createRow ∨ ∃ r₀, r₀.repoId = repoId ∧ row = updateRow r₀) := by
  unfold repoIndexUpsert repoIndexFindUnique
  split
  case isTrue hany =>
    simp only []
    have aux : ∀ l : List RepoIndexRow, l.any (fun row => row.repoId == repoId) = true →
        ∃ row, (l.map fun row => if row.repoId == repoId then updateRow row else row).find?
            (fun row => row.repoId == repoId) = some row ∧
          ∃ r₀, r₀.repoId = repoId ∧ row = updateRow r₀ := by
      intro l hl
      induction l with
      | nil => simp at hl
      | cons a l ih =>
        by_cases ha : (a.repoId == repoId) = true
        · refine ⟨updateRow a, ?_, a, by simpa using ha, rfl⟩
          simp only [List.map_cons, if_pos ha]
          exact List.find?_cons_of_pos _ (by simpa [hu a] using ha)
        · simp only [List.any_cons, ha, Bool.false_or] at hl
          rcases ih hl with ⟨row, hrow, hex⟩
          refine ⟨row, ?_, hex⟩
          simp only [List.map_cons, if_neg ha]
          rw [List.find?_cons_of_neg _ (by simpa using ha)]
          exact hrow
    rcases aux db.repoIndex hany with ⟨row, hrow, hex⟩
    exact ⟨row, hrow, Or.inr hex⟩
  case isFalse hany =>
    simp only []
    refine ⟨createRow, ?_, Or.inl rfl⟩
    rw [List.find?_append]
    have hnone : db.repoIndex.find? (fun row => row.repoId == repoId) = none := by
      rw [List.find?_eq_none]
      intro a ha hcon
      refine absurd ?_ hany
      rw [List.any_eq_true]
      exact ⟨a, ha, hcon⟩
    rw [hnone]
    simp [hc]

/-- After a full reindex, the stored `RepoIndex` row carries the commit
hash that was written. -/
theorem fullReindex_lookup (db : Store) (rid : String) (E : List EmbeddedChunk)
    (opts : WriteOptions) (now : Nat) :
    ∃ row, repoIndexFindUnique (fullReindex db rid E opts now).1 rid = some row ∧
      row.commitHash = opts.commitHash := by
  unfold fullReindex
  simp only []
  rcases repoIndexFindUnique_upsert
      (batchInsertChunks (match repoIndexFindUnique db rid with
        | some _ => codeChunkDeleteMany db rid
        | none => (db, 0)).1 E false).1 rid
      (fullReindexCreateRow rid opts (batchInsertChunks (match repoIndexFindUnique db rid with
        | some _ => codeChunkDeleteMany db rid
        | none => (db, 0)).1 E false).2 now)
      (fullReindexUpdateRow opts (batchInsertChunks (match repoIndexFindUnique db rid with
        | some _ => codeChunkDeleteMany db rid
        | none => (db, 0)).1 E false).2 now)
      rfl (fun _ => rfl) with ⟨row, hrow, hcase⟩
  refine ⟨row, hrow, ?_⟩
  rcases hcase with rfl | ⟨r₀, _, rfl⟩ <;> rfl

/-- C1: with a commit hash equal to the stored one, `writeToVectorStore`
leaves the store untouched and reports `skipped` with zero counts; and
for any commit hash, writing twice in a row leaves the store exactly as
after the first write, the second call reporting `skipped`. -/
theorem writeToVectorStore_skip_idempotent :
    (∀ (db : Store) (E : List EmbeddedChunk) (opts : WriteOptions) (now : Nat)
        (h : String) (row : RepoIndexRow),
      opts.commitHash = some h → h ≠ "" →
      repoIndexFindUnique db (writeRepoId opts) = some row →
      row.commitHash = some h →
      writeToVectorStore db E opts now =
        (db, { repoId := writeRepoId opts, strategy := "skipped",
               chunksWritten := 0, chunksDeleted := 0, durationMs := 0 })) ∧
    (∀ (db : Store) (E : List EmbeddedChunk) (opts : WriteOptions) (now₁ now₂ : Nat)
        (h : String),
      opts.commitHash = some h → h ≠ "" →
      (writeToVectorStore (writeToVectorStore db E opts now₁).1 E opts now₂).1 =
          (writeToVectorStore db E opts now₁).1 ∧
        (writeToVectorStore (writeToVectorStore db E opts now₁).1 E opts now₂).2 =
          { repoId := writeRepoId opts, strategy := "skipped",
            chunksWritten := 0, chunksDeleted := 0, durationMs := 0 }) := by
  have hskip : ∀ (db : Store) (E : List EmbeddedChunk) (opts : WriteOptions) (now : Nat)
      (h : String) (row : RepoIndexRow),
      opts.commitHash = some h → h ≠ "" →
      repoIndexFindUnique db (writeRepoId opts) = some row →
      row.commitHash = some h →
      writeToVectorStore db E opts now =
        (db, { repoId := writeRepoId opts, strategy := "skipped",
               chunksWritten := 0, chunksDeleted := 0, durationMs := 0 }) := by
    intro db E opts now h row hch hne hfind hrow
    simp only [writeToVectorStore, hch]
    rw [if_neg hne, hfind]
    simp only []
    rw [if_pos hrow]
  refine ⟨hskip, ?_⟩
  intro db E opts now₁ now₂ h hch hne
  rcases hfind : repoIndexFindUnique db (writeRepoId opts) with _ | row
  · -- no prior index: the first call is a full reindex
    have hcall1 : writeToVectorStore db E opts now₁ =
        fullReindex db (writeRepoId opts) E opts now₁ := by
      simp only [writeToVectorStore, hch]
      rw [if_neg hne, hfind]
    rw [hcall1]
    rcases fullReindex_lookup db (writeRepoId opts) E opts now₁ with ⟨row', hrow', hch'⟩
    rw [hch] at hch'
    rw [hskip _ E opts now₂ h row' hch hne hrow' hch']
    exact ⟨rfl, rfl⟩
  · by_cases hrow : row.commitHash = some h
    · rw [hskip db E opts now₁ h row hch hne hfind hrow]
      rw [hskip db E opts now₂ h row hch hne hfind hrow]
      exact ⟨rfl, rfl⟩
    · have hcall1 : writeToVectorStore db E opts now₁ =
          fullReindex db (writeRepoId opts) E opts now₁ := by
        simp only [writeToVectorStore, hch]
        rw [if_neg hne, hfind]
        simp only []
        rw [if_neg hrow]
      rw [hcall1]
      rcases fullReindex_lookup db (writeRepoId opts) E opts now₁ with ⟨row', hrow', hch'⟩
      rw [hch] at hch'
      rw [hskip _ E opts now₂ h row' hch hne hrow' hch']
      exact ⟨rfl, rfl⟩

theorem repoIndexUpsert_codeChunks (db : Store) (rid : String)
    (createRow : RepoIndexRow) (updateRow : RepoIndexRow → RepoIndexRow) :
    (repoIndexUpsert db rid createRow updateRow).codeChunks = db.codeChunks := by
  unfold repoIndexUpsert
  split <;> rfl

theorem insertChunkRow_preserves (db : Store) (e : EmbeddedChunk) (upsert : Bool)
    (c : StoredChunk) (h : c ∈ db.codeChunks) (hne : c.id ≠ e.chunk.id) :
    c ∈ (insertChunkRow db e upsert).codeChunks := by
  unfold insertChunkRow
  split
  · split
    · simp only []
      refine List.mem_map.mpr ⟨c, h, ?_⟩
      rw [if_neg (by simpa using hne)]
    · exact h
  · simp [h]

theorem batchInsertChunks_preserves (E : List EmbeddedChunk) :
    ∀ (db : Store) (upsert : Bool) (c : StoredChunk), c ∈ db.codeChunks →
      (∀ e ∈ E, c.id ≠ e.chunk.id) →
      c ∈ (batchInsertChunks db E upsert).1.codeChunks := by
  induction E with
  | nil => intro db upsert c h _; exact h
  | cons e E ih =>
    intro db upsert c h hne
    have hstep : c ∈ (insertChunkRow db e upsert).codeChunks :=
      insertChunkRow_preserves db e upsert c h (hne e (by simp))
    have := ih (insertChunkRow db e upsert) upsert c hstep
      (fun e' he' => hne e' (by simp [he']))
    simpa [batchInsertChunks, List.foldl_cons] using this

theorem upsertChunks_lookup (db : Store) (rid : String) (E : List EmbeddedChunk)
    (opts : WriteOptions) (now : Nat) :
    ∃ row, repoIndexFindUnique (upsertChunks db rid E opts now).1 rid = some row ∧
      row.chunkCount = E.length := by
  unfold upsertChunks
  simp only []
  rcases repoIndexFindUnique_upsert (batchInsertChunks db E true).1 rid
      (upsertCreateRow rid opts (batchInsertChunks db E true).2 now)
      (upsertUpdateRow opts (batchInsertChunks db E true).2 now)
      rfl (fun _ => rfl) with ⟨row, hrow, hcase⟩
  exact ⟨row, hrow, by rcases hcase with rfl | ⟨r₀, _, rfl⟩ <;> rfl⟩

/-- C10: without a commit hash, `writeToVectorStore` takes the upsert
path; the resulting `RepoIndex` row's `chunkCount` equals the number of
chunks passed to the call, while stored chunks of the repo whose id is
not among the passed ids are left in place — after a partial upsert,
`chunkCount` can understate the repo's stored total.  (The `Nodup`
hypothesis keeps the input inside the domain where the row-wise
`ON CONFLICT DO UPDATE` model agrees with Postgres, which rejects a
statement touching one row twice.) -/
theorem upsertChunks_chunkCount (db : Store) (E : List EmbeddedChunk)
    (opts : WriteOptions) (now : Nat)
    (hch : opts.commitHash = none)
    (_hnd : (E.map fun e => e.chunk.id).Nodup) :
    (writeToVectorStore db E opts now).2.strategy = "upsert" ∧
      (writeToVectorStore db E opts now).2.chunksWritten = E.length ∧
      (∃ row, repoIndexFindUnique (writeToVectorStore db E opts now).1 (writeRepoId opts)
          = some row ∧ row.chunkCount = E.length) ∧
      (∀ c ∈ db.codeChunks, (∀ e ∈ E, c.id ≠ e.chunk.id) →
        c ∈ (writeToVectorStore db E opts now).1.codeChunks) := by
  have hw : writeToVectorStore db E opts now =
      upsertChunks db (writeRepoId opts) E opts now := by
    simp only [writeToVectorStore, hch]
  rw [hw]
  refine ⟨rfl, rfl, upsertChunks_lookup db (writeRepoId opts) E opts now, ?_⟩
  intro c hc hne
  show c ∈ (repoIndexUpsert (batchInsertChunks db E true).1 (writeRepoId opts)
    (upsertCreateRow (writeRepoId opts) opts (batchInsertChunks db E true).2 now)
    (upsertUpdateRow opts (batchInsertChunks db E true).2 now)).codeChunks
  rw [repoIndexUpsert_codeChunks]
  exact batchInsertChunks_preserves E db true c hc hne

/-- Witness for C1 at a concrete store already indexed at commit `abc`. -/
theorem writeToVectorStore_skip_idempotent_witness :
    writeToVectorStore sampleStoreIndexed [sampleEmbedded] sampleOptsHash 0 =
      (sampleStoreIndexed,
        { repoId := "o/r", strategy := "skipped", chunksWritten := 0,
          chunksDeleted := 0, durationMs := 0 }) ∧
      (writeToVectorStore
          (writeToVectorStore sampleStoreIndexed [sampleEmbedded] sampleOptsHash 5).1
          [sampleEmbedded] sampleOptsHash 6).2 =
        { repoId := "o/r", strategy := "skipped", chunksWritten := 0,
          chunksDeleted := 0, durationMs := 0 } :=
  ⟨writeToVectorStore_skip_idempotent.1 sampleStoreIndexed [sampleEmbedded]
      sampleOptsHash 0 "abc" sampleRow rfl (by decide) (by decide) rfl,
   (writeToVectorStore_skip_idempotent.2 sampleStoreIndexed [sampleEmbedded]
      sampleOptsHash 5 6 "abc" rfl (by decide)).2⟩

/-- Witness for C10: one stored chunk not mentioned in the call survives,
and `chunkCount = 1` understates the two stored chunks. -/
theorem upsertChunks_chunkCount_witness :
    (writeToVectorStore sampleStoreIndexed [sampleEmbedded] sampleOptsNoHash 9).2.strategy
        = "upsert" ∧
      (writeToVectorStore sampleStoreIndexed [sampleEmbedded] sampleOptsNoHash 9).2.chunksWritten
        = 1 ∧
      sampleOldChunk ∈
        (writeToVectorStore sampleStoreIndexed [sampleEmbedded] sampleOptsNoHash 9).1.codeChunks ∧
      (writeToVectorStore sampleStoreIndexed [sampleEmbedded] sampleOptsNoHash 9).1.codeChunks.length
        = 2 :=
  ⟨(upsertChunks_chunkCount sampleStoreIndexed [sampleEmbedded] sampleOptsNoHash 9
      rfl (by decide)).1,
   (upsertChunks_chunkCount sampleStoreIndexed [sampleEmbedded] sampleOptsNoHash 9
      rfl (by decide)).2.1,
   (upsertChunks_chunkCount sampleStoreIndexed [sampleEmbedded] sampleOptsNoHash 9
      rfl (by decide)).2.2.2 sampleOldChunk (by decide) (by decide),
   by decide⟩

/-- C9: a job whose ingestion produced zero chunks terminates
successfully with `strategy = "skipped"`, `chunksWritten = 0`, leaving
the store untouched — for every embedding function and store, so neither
the embedding phase nor the write phase contributes to the outcome. -/
theorem processIndexRepoJob_empty_skip (githubUrl defaultBranch : String)
    (repoSizeKB : Nat) (commitHash : Option String)
    (ingestionResult : IngestionOutput) (embedFn : List CodeChunk → EmbedResult)
    (db : Store) (now : Nat)
    (hok : ∃ o r, parseGitHubUrl githubUrl = .ok (o, r))
    (hempty : ingestionResult.chunks = []) :
    processIndexRepoJob githubUrl defaultBranch repoSizeKB commitHash
        ingestionResult embedFn db now =
      .ok (db, { repoId := ingestionResult.repoId, strategy := "skipped",
                 chunksWritten := 0, totalDurationMs := 0 }) := by
  rcases hok with ⟨o, r, hok⟩
  unfold processIndexRepoJob
  rw [hok]
  simp [hempty]

/-- Witness for C9 at a concrete job whose ingestion found no chunks. -/
theorem processIndexRepoJob_empty_skip_witness :
    processIndexRepoJob "https://github.com/o/r" "main" 1 (some "abc")
        { repoId := "o/r", chunks := [],
          stats := { totalFilesFound := 0, filesAccepted := 0, filesRejected := 0,
                     totalChunks := 0, usedCloneFallback := false, durationMs := 0 } }
        (fun _ => { embedded := [], model := "m" })
        { repoIndex := [], codeChunks := [] } 4 =
      .ok ({ repoIndex := [], codeChunks := [] },
        { repoId := "o/r", strategy := "skipped", chunksWritten := 0,
          totalDurationMs := 0 }) :=
  processIndexRepoJob_empty_skip "https://github.com/o/r" "main" 1 (some "abc")
    { repoId := "o/r", chunks := [],
      stats := { totalFilesFound := 0, filesAccepted := 0, filesRejected := 0,
                 totalChunks := 0, usedCloneFallback := false, durationMs := 0 } }
    (fun _ => { embedded := [], model := "m" })
    { repoIndex := [], codeChunks := [] } 4
    ⟨"o", "r", rfl⟩ rfl

theorem assembleFileChunks_spec (l : List RetrievedChunk) :
    ∀ idx chars,
      (assembleFileChunks l idx chars).1 =
        (emittedFileChunks l idx chars).map (fun p => chunkBlockOf p.1 p.2) ∧
      (assembleFileChunks l idx chars).2.1 =
        (emittedFileChunks l idx chars).map
          (fun p => (citationKeyOf p.1, citationOf p.2)) := by
  induction l with
  | nil => intro idx chars; simp [assembleFileChunks, emittedFileChunks]
  | cons chunk rest ih =>
    intro idx chars
    simp only [assembleFileChunks, emittedFileChunks]
    split
    · simp
    · rcases ih (idx + 1) (chars + (chunkBlockOf idx chunk).length) with ⟨h1, h2⟩
      simp [h1, h2]

theorem foldl_joinSep_prefix (sep : String) :
    ∀ (l : List String) (a : String),
      ∃ q, l.foldl (fun acc z => acc ++ sep ++ z) a = a ++ q := by
  intro l
  induction l with
  | nil =>
    intro a
    refine ⟨"", String.ext ?_⟩
    simp
  | cons z zs ih =>
    intro a
    rcases ih (a ++ sep ++ z) with ⟨q, hq⟩
    refine ⟨sep ++ z ++ q, ?_⟩
    rw [List.foldl_cons, hq]
    apply String.ext
    simp

theorem foldl_mem_decomp (sep : String) :
    ∀ (l : List String) (a x : String), x ∈ l →
      ∃ p q, l.foldl (fun acc z => acc ++ sep ++ z) a = p ++ x ++ q := by
  intro l
  induction l with
  | nil => intro a x h; simp at h
  | cons z zs ih =>
    intro a x h
    rcases List.mem_cons.mp h with rfl | h
    · rcases foldl_joinSep_prefix sep zs (a ++ sep ++ x) with ⟨q, hq⟩
      refine ⟨a ++ sep, q, ?_⟩
      rw [List.foldl_cons, hq]
    · exact ih (a ++ sep ++ z) x h

theorem joinSep_mem_decomp (sep : String) (l : List String) (x : String)
    (h : x ∈ l) : ∃ p q, joinSep sep l = p ++ x ++ q := by
  cases l with
  | nil => simp at h
  | cons y ys =>
    rcases List.mem_cons.mp h with rfl | h
    · rcases foldl_joinSep_prefix sep ys x with ⟨q, hq⟩
      refine ⟨"", q, String.ext ?_⟩
      rw [joinSep, hq]
      simp
    · exact foldl_mem_decomp sep ys y x h

theorem assembleGroups_citations (gs : List (String × List RetrievedChunk)) :
    ∀ idx chars,
      (assembleGroups gs idx chars).2.1 =
        (emittedGroups gs idx chars).map
          (fun p => (citationKeyOf p.1, citationOf p.2)) := by
  induction gs with
  | nil => intro idx chars; simp [assembleGroups, emittedGroups]
  | cons g rest ih =>
    intro idx chars
    simp only [assembleGroups, emittedGroups, List.map_append]
    rw [(assembleFileChunks_spec g.2 idx chars).2, ih]

theorem assembleGroups_block_mem (gs : List (String × List RetrievedChunk)) :
    ∀ idx chars k c, (k, c) ∈ emittedGroups gs idx chars →
      ∃ blk ∈ (assembleGroups gs idx chars).1,
        ∃ p q, blk = p ++ chunkBlockOf k c ++ q := by
  induction gs with
  | nil => intro idx chars k c h; simp [emittedGroups] at h
  | cons g rest ih =>
    intro idx chars k c h
    simp only [emittedGroups, List.mem_append] at h
    rcases h with h | h
    · have hblockmem : chunkBlockOf k c ∈ (assembleFileChunks g.2 idx chars).1 := by
        rw [(assembleFileChunks_spec g.2 idx chars).1]
        exact List.mem_map.mpr ⟨(k, c), h, rfl⟩
      have hmem2 : chunkBlockOf k c ∈
          ("### File: `" ++ g.1 ++ "`") :: (assembleFileChunks g.2 idx chars).1 :=
        List.mem_cons_of_mem _ hblockmem
      rcases joinSep_mem_decomp "\n\n" _ _ hmem2 with ⟨p, q, hpq⟩
      refine ⟨joinSep "\n\n" (("### File: `" ++ g.1 ++ "`")
        :: (assembleFileChunks g.2 idx chars).1), ?_, p, q, hpq⟩
      simp [assembleGroups]
    · rcases ih _ _ k c h with ⟨blk, hblk, p, q, hpq⟩
      refine ⟨blk, ?_, p, q, hpq⟩
      simp only [assembleGroups, List.mem_cons]
      exact Or.inr hblk

/-- C7: every citation marker emitted into the user prompt has a
`citationMap` entry recording that chunk's file path, line range and
symbol name; the marker's chunk block occurs verbatim inside
`userPrompt`.  (Markers are the `[N]` keys the assembler itself emits;
arbitrary query or chunk text is free to contain bracketed numbers the
assembler never issued.) -/
theorem assembleContext_citations_total (query : String)
    (chunks : List RetrievedChunk) (repoId : String) (k : Nat)
    (c : RetrievedChunk) (h : (k, c) ∈ emittedCitations chunks) :
    (citationKeyOf k, citationOf c) ∈ (assembleContext query chunks repoId).citationMap ∧
      ∃ pre post, (assembleContext query chunks repoId).userPrompt =
        pre ++ chunkBlockOf k c ++ post := by
  constructor
  · show (citationKeyOf k, citationOf c) ∈
      (assembleGroups (groupByFile chunks) 1 0).2.1
    rw [assembleGroups_citations]
    exact List.mem_map.mpr ⟨(k, c), h, rfl⟩
  · rcases assembleGroups_block_mem (groupByFile chunks) 1 0 k c h with
      ⟨blk, hblk, p, q, hpq⟩
    rcases joinSep_mem_decomp "\n\n---\n\n" _ _ hblk with ⟨p2, q2, hdec⟩
    refine ⟨"## Codebase Context\n\n" ++ p2 ++ p,
      q ++ q2 ++ ("\n\n---\n\n## Question\n\n" ++ query
        ++ "\n\n## Answer (cite sources with [N] markers)"), ?_⟩
    show buildUserPrompt query (joinSep "\n\n---\n\n"
      (assembleGroups (groupByFile chunks) 1 0).1) = _
    rw [buildUserPrompt, hdec, hpq]
    apply String.ext
    simp

/-- Witness for C7 at a concrete retrieval. -/
theorem assembleContext_citations_total_witness :
    (1, sampleRetrieved) ∈ emittedCitations [sampleRetrieved] ∧
      ((citationKeyOf 1, citationOf sampleRetrieved) ∈
          (assembleContext "q" [sampleRetrieved] "o/r").citationMap ∧
        ∃ pre post, (assembleContext "q" [sampleRetrieved] "o/r").userPrompt =
          pre ++ chunkBlockOf 1 sampleRetrieved ++ post) :=
  ⟨by decide, assembleContext_citations_total "q" [sampleRetrieved] "o/r" 1
    sampleRetrieved (by decide)⟩

/-! ## Claim C8: `parseGitHubUrl` round-trip -/
theorem infix_snoc_cases {p l : List Char} {c : Char} (h : p <:+: l ++ [c]) :
    p <:+: l ∨ p <:+ l ++ [c] := by
  rcases h with ⟨s, t, hst⟩
  rcases List.eq_nil_or_concat t with rfl | ⟨t', c', rfl⟩
  · right
    exact ⟨s, by simpa using hst⟩
  · left
    have h2 : c' :: (s ++ (p ++ t')).reverse = c :: l.reverse := by
      have h3 := congrArg List.reverse hst
      simpa [List.append_assoc] using h3
    injection h2 with _ hrest
    refine ⟨s, t', ?_⟩
    have := List.reverse_injective hrest
    simpa [List.append_assoc] using this

theorem infix_elim_slashfree_suffix {p : List Char} (hp : p.getLast? = some '/') :
    ∀ {seg : List Char}, ('/' : Char) ∉ seg → ∀ {l : List Char},
      p <:+: l ++ seg → p <:+: l := by
  intro seg
  induction seg using List.reverseRecOn with
  | nil => intro _ l h; simpa using h
  | append_singleton seg' c ih =>
    intro hseg l h
    have h1 : p <:+: (l ++ seg') ++ [c] := by simpa [List.append_assoc] using h
    rcases infix_snoc_cases h1 with h2 | h2
    · exact ih (fun hmem => hseg (by simp [hmem])) h2
    · exfalso
      rcases h2 with ⟨s, hs⟩
      have hpn : p ≠ [] := by
        intro hnil; rw [hnil] at hp; simp at hp
      have hlast := congrArg List.getLast? hs
      rw [List.getLast?_append] at hlast
      rw [hp] at hlast
      simp at hlast
      exact hseg (List.mem_append.mpr (Or.inr (by simp only [List.mem_singleton]; exact hlast)))

theorem suffix_slash_block {r : List Char} (hr : ('/' : Char) ∉ r)
    (hne : r ≠ "tree".data) {m : List Char}
    (h : "/tree".data <:+ m ++ '/' :: r) : False := by
  have h2 : ('/' :: r) <:+ m ++ '/' :: r := ⟨m, rfl⟩
  rcases Nat.le_total ("/tree".data.length) (('/' :: r).length) with hle | hle
  · rcases List.suffix_of_suffix_length_le h h2 hle with ⟨s, hs⟩
    cases s with
    | nil =>
      apply hne
      have h4 : '/' :: "tree".data = '/' :: r := by
        have hdec2 : ("/tree".data : List Char) = '/' :: "tree".data := by decide
        rw [← hdec2]
        simpa using hs
      injection h4 with _ h5
      exact h5.symm
    | cons c s' =>
      apply hr
      have hs' : c :: (s' ++ "/tree".data) = '/' :: r := by simpa using hs
      injection hs' with _ h3
      have hmem : ('/' : Char) ∈ s' ++ "/tree".data :=
        List.mem_append.mpr (Or.inr (by decide))
      rw [h3] at hmem
      exact hmem
  · rcases List.suffix_of_suffix_length_le h2 h hle with ⟨s, hs⟩
    cases s with
    | nil =>
      apply hne
      have h4 : '/' :: r = '/' :: "tree".data := by
        have hdec2 : ("/tree".data : List Char) = '/' :: "tree".data := by decide
        rw [← hdec2]
        simpa using hs
      injection h4 with _ h5
    | cons c s' =>
      have hs' : c :: (s' ++ '/' :: r) = '/' :: "tree".data := by
        have hdec : ("/tree".data : List Char) = '/' :: "tree".data := by decide
        rw [hdec] at hs
        simpa using hs
      injection hs' with _ h3
      have hmem : ('/' : Char) ∈ s' ++ '/' :: r :=
        List.mem_append.mpr (Or.inr (by simp))
      rw [h3] at hmem
      revert hmem
      decide

theorem not_tree_infix_base {o r : List Char} (ho : ('/' : Char) ∉ o)
    (hr : ('/' : Char) ∉ r) (hotree : o ≠ "tree".data) :
    ¬ "/tree/".data <:+: ("https://github.com/".data ++ (o ++ '/' :: r)) := by
  intro h
  have h1 : "/tree/".data <:+: ("https://github.com/".data ++ o) ++ ['/'] := by
    apply infix_elim_slashfree_suffix (by decide) hr
    simpa [List.append_assoc] using h
  rcases infix_snoc_cases h1 with h2 | h2
  · have h3 : "/tree/".data <:+: "https://github.com/".data :=
      infix_elim_slashfree_suffix (by decide) ho h2
    revert h3
    decide
  · rcases h2 with ⟨s, hs⟩
    have hsplit : ("/tree/".data : List Char) = "/tree".data ++ ['/'] := by decide
    rw [hsplit] at hs
    have hs2 : (s ++ "/tree".data) ++ ['/'] =
        ("https://github.com/".data ++ o) ++ ['/'] := by
      simpa [List.append_assoc] using hs
    have hs3 : s ++ "/tree".data = "https://github.com/".data ++ o :=
      List.append_cancel_right hs2
    have hB : ("https://github.com/".data : List Char) =
        "https://github.com".data ++ ['/'] := by decide
    rw [hB] at hs3
    have hs4 : s ++ "/tree".data = "https://github.com".data ++ '/' :: o := by
      rw [hs3]
      simp
    exact suffix_slash_block ho hotree (m := "https://github.com".data) ⟨s, hs4⟩

theorem not_tree_infix_ext {o r : List Char} (ho : ('/' : Char) ∉ o)
    (hr : ('/' : Char) ∉ r) (hotree : o ≠ "tree".data) (hrtree : r ≠ "tree".data) :
    ¬ "/tree/".data <:+:
      (("https://github.com/".data ++ (o ++ '/' :: r)) ++ "/tree".data) := by
  intro h
  have hsplit : ("/tree".data : List Char) = '/' :: "tree".data := by decide
  have h1 : "/tree/".data <:+:
      (("https://github.com/".data ++ (o ++ '/' :: r)) ++ ['/']) ++ "tree".data := by
    rw [hsplit] at h
    simpa [List.append_assoc] using h
  have h2 : "/tree/".data <:+:
      ("https://github.com/".data ++ (o ++ '/' :: r)) ++ ['/'] :=
    infix_elim_slashfree_suffix (by decide) (by decide) h1
  rcases infix_snoc_cases h2 with h3 | h3
  · exact not_tree_infix_base ho hr hotree h3
  · rcases h3 with ⟨s, hs⟩
    have hsplit2 : ("/tree/".data : List Char) = "/tree".data ++ ['/'] := by decide
    rw [hsplit2] at hs
    have hs2 : (s ++ "/tree".data) ++ ['/'] =
        (("https://github.com/".data ++ o) ++ '/' :: r) ++ ['/'] := by
      simpa [List.append_assoc] using hs
    have hs3 : s ++ "/tree".data = ("https://github.com/".data ++ o) ++ '/' :: r :=
      List.append_cancel_right hs2
    exact suffix_slash_block hr hrtree ⟨s, hs3⟩

theorem stripGitSuffix_eq_self {s : String} (h : ¬ ".git".data <:+ s.data) :
    stripGitSuffix s = s := by
  unfold stripGitSuffix
  rw [if_neg (by simpa using h)]

theorem stripGitSuffix_append (s : String) :
    stripGitSuffix (s ++ ".git") = s := by
  unfold stripGitSuffix
  rw [if_pos (by rw [List.isSuffixOf_iff_suffix]; exact ⟨s.data, by simp⟩)]
  apply String.ext
  show List.take ((s ++ ".git").data.length - 4) (s ++ ".git").data = s.data
  have hd : (s ++ ".git").data = s.data ++ ".git".data := by simp
  rw [hd]
  have h4 : (".git".data : List Char).length = 4 := by decide
  have hlen : (s.data ++ ".git".data).length - 4 = s.data.length := by
    rw [List.length_append, h4]
    omega
  rw [hlen]
  exact List.take_left' rfl

theorem no_git_suffix {r : List Char} (hrgit : ¬ ".git".data <:+ r)
    (l : List Char) : ¬ ".git".data <:+ l ++ '/' :: r := by
  intro h
  have h2 : ('/' :: r) <:+ l ++ '/' :: r := ⟨l, rfl⟩
  rcases Nat.le_total (".git".data.length) (('/' :: r).length) with hle | hle
  · rcases List.suffix_of_suffix_length_le h h2 hle with ⟨s, hs⟩
    cases s with
    | nil =>
      have hs' : ('.' :: "git".data : List Char) = '/' :: r := by
        have hd : (".git".data : List Char) = '.' :: "git".data := by decide
        rw [← hd]
        simpa using hs
      injection hs' with h1 _
      exact absurd h1 (by decide)
    | cons c s' =>
      apply hrgit
      have hs' : c :: (s' ++ ".git".data) = '/' :: r := by simpa using hs
      injection hs' with _ h3
      exact ⟨s', h3⟩
  · rcases List.suffix_of_suffix_length_le h2 h hle with ⟨s, hs⟩
    have hmem : ('/' : Char) ∈ ".git".data := by
      rw [← hs]
      simp
    revert hmem
    decide

theorem splitBeforeFirst_eq_none {pat l : List Char} (h : ¬ pat <:+: l) :
    splitBeforeFirst pat l = none := by
  induction l with
  | nil =>
    unfold splitBeforeFirst
    rw [if_neg]
    intro hp
    exact h (List.IsPrefix.isInfix (by simpa using hp))
  | cons c cs ih =>
    have hpre : ¬ pat.isPrefixOf (c :: cs) = true := by
      intro hp
      exact h (List.IsPrefix.isInfix (by simpa using hp))
    unfold splitBeforeFirst
    rw [if_neg hpre, ih (fun hinf => h (List.infix_cons hinf))]
    simp

theorem splitBeforeFirst_of_isPrefix {pat l : List Char}
    (h : pat.isPrefixOf l = true) : splitBeforeFirst pat l = some [] := by
  cases l with
  | nil => unfold splitBeforeFirst; rw [if_pos h]
  | cons c cs => unfold splitBeforeFirst; rw [if_pos h]

theorem splitBeforeFirst_exact {pat : List Char} (hpne : pat ≠ []) :
    ∀ (x y : List Char), ¬ pat <:+: (x ++ pat.dropLast) →
      splitBeforeFirst pat (x ++ pat ++ y) = some x := by
  intro x
  induction x with
  | nil =>
    intro y _
    apply splitBeforeFirst_of_isPrefix
    simp only [List.nil_append]
    rw [List.isPrefixOf_iff_prefix]
    exact ⟨y, rfl⟩
  | cons c x' ih =>
    intro y hno
    have hl : (c :: x') ++ pat ++ y = c :: (x' ++ pat ++ y) := by simp
    have hpre : ¬ pat.isPrefixOf (c :: (x' ++ pat ++ y)) = true := by
      intro hp
      apply hno
      rw [List.isPrefixOf_iff_prefix] at hp
      have hdp : (c :: x') ++ pat.dropLast <+: (c :: x') ++ pat ++ y := by
        rcases List.dropLast_prefix pat with ⟨t, ht⟩
        refine ⟨t ++ y, ?_⟩
        rw [← List.append_assoc, List.append_assoc (c :: x') pat.dropLast t, ht]
        try simp [List.append_assoc]
      have hlen : pat.length ≤ ((c :: x') ++ pat.dropLast).length := by
        simp only [List.length_append, List.length_cons, List.length_dropLast]
        have : 1 ≤ pat.length := by
          cases pat with
          | nil => exact absurd rfl hpne
          | cons _ _ => simp
        omega
      have hp2 : pat <+: (c :: x') ++ pat ++ y := by
        rw [hl]
        exact hp
      exact List.IsPrefix.isInfix
        (List.prefix_of_prefix_length_le hp2 hdp hlen)
    have hno' : ¬ pat <:+: (x' ++ pat.dropLast) := by
      intro hinf
      apply hno
      have hr : (c :: x') ++ pat.dropLast = c :: (x' ++ pat.dropLast) := by simp
      rw [hr]
      exact List.infix_cons hinf
    rw [hl]
    unfold splitBeforeFirst
    rw [if_neg hpre, ih y hno']
    simp

theorem stripLit_self : ∀ (t l : List Char), stripLit t (t ++ l) = some l := by
  intro t
  induction t with
  | nil => intro l; rfl
  | cons c ts ih =>
    intro l
    show stripLit (c :: ts) (c :: (ts ++ l)) = some l
    unfold stripLit
    rw [if_pos rfl]
    exact ih l

theorem takeWhile_all_append {p : Char → Bool} :
    ∀ {o : List Char}, (∀ c ∈ o, p c) → ∀ {x : Char}, p x = false →
      ∀ (rest : List Char),
        (o ++ x :: rest).takeWhile p = o ∧ (o ++ x :: rest).dropWhile p = x :: rest := by
  intro o
  induction o with
  | nil =>
    intro _ x hx rest
    constructor
    · simp [List.takeWhile_cons, hx]
    · simp [List.dropWhile_cons, hx]
  | cons a o' ih =>
    intro ho x hx rest
    have ha : p a = true := ho a (by simp)
    rcases ih (fun c hc => ho c (by simp [hc])) hx rest with ⟨h1, h2⟩
    constructor
    · simp [List.takeWhile_cons, ha, h1]
    · simp [List.dropWhile_cons, ha, h2]

theorem takeWhile_all {p : Char → Bool} :
    ∀ {r : List Char}, (∀ c ∈ r, p c) → r.takeWhile p = r := by
  intro r
  induction r with
  | nil => intro _; rfl
  | cons a r' ih =>
    intro hr
    simp [List.takeWhile_cons, hr a (by simp), ih (fun c hc => hr c (by simp [hc]))]

theorem matchOwnerRepoHere_exact {o r : List Char} (ho : ('/' : Char) ∉ o)
    (hone : o ≠ []) (hr : ('/' : Char) ∉ r) (hrne : r ≠ []) :
    matchOwnerRepoHere ("github.com/".data ++ (o ++ '/' :: r)) =
      some (String.mk o, String.mk r) := by
  unfold matchOwnerRepoHere
  rw [stripLit_self]
  simp only [Option.bind_eq_bind, Option.some_bind]
  have hp : ∀ c ∈ o, (fun c => decide (¬ c = '/')) c = true := by
    intro c hc
    simp only [decide_eq_true_eq, decide_not]
    simp only [Bool.not_eq_true', decide_eq_false_iff_not]
    intro hcc
    exact ho (hcc ▸ hc)
  have hslash : (fun c => decide (¬ c = '/')) '/' = false := by decide
  rcases takeWhile_all_append hp hslash r with ⟨h1, h2⟩
  rw [h1, h2]
  rw [if_neg (by simpa [List.isEmpty_iff] using hone)]
  simp only []
  rw [takeWhile_all (fun c hc => by
    simp only [decide_eq_true_eq, decide_not]
    simp only [Bool.not_eq_true', decide_eq_false_iff_not]
    intro hcc
    exact hr (hcc ▸ hc))]
  rw [if_neg (by simpa [List.isEmpty_iff] using hrne)]

theorem matchOwnerRepoHere_of_head_ne {c : Char} (hc : ¬ c = 'g') (l : List Char) :
    matchOwnerRepoHere (c :: l) = none := by
  unfold matchOwnerRepoHere
  have hd : ("github.com/".data : List Char) = 'g' :: "ithub.com/".data := by decide
  rw [hd]
  show (stripLit ('g' :: "ithub.com/".data) (c :: l)).bind _ = none
  unfold stripLit
  rw [if_neg hc]
  rfl

theorem findOwnerRepo_step {c : Char} (hc : ¬ c = 'g') (l : List Char) :
    findOwnerRepo (c :: l) = findOwnerRepo l := by
  show (matchOwnerRepoHere (c :: l)).orElse (fun _ => findOwnerRepo l) = findOwnerRepo l
  rw [matchOwnerRepoHere_of_head_ne hc]
  rfl

theorem findOwnerRepo_exact {o r : List Char} (ho : ('/' : Char) ∉ o)
    (hone : o ≠ []) (hr : ('/' : Char) ∉ r) (hrne : r ≠ []) :
    findOwnerRepo ("https://github.com/".data ++ (o ++ '/' :: r)) =
      some (String.mk o, String.mk r) := by
  have hB : ("https://github.com/".data : List Char) =
      'h' :: 't' :: 't' :: 'p' :: 's' :: ':' :: '/' :: '/' :: "github.com/".data := by
    decide
  rw [hB]
  show findOwnerRepo ('h' :: 't' :: 't' :: 'p' :: 's' :: ':' :: '/' :: '/' ::
    ("github.com/".data ++ (o ++ '/' :: r))) = _
  rw [findOwnerRepo_step (by decide), findOwnerRepo_step (by decide),
    findOwnerRepo_step (by decide), findOwnerRepo_step (by decide),
    findOwnerRepo_step (by decide), findOwnerRepo_step (by decide),
    findOwnerRepo_step (by decide), findOwnerRepo_step (by decide)]
  have hG : ("github.com/".data : List Char) ++ (o ++ '/' :: r) =
      'g' :: ("ithub.com/".data ++ (o ++ '/' :: r)) := by
    have : ("github.com/".data : List Char) = 'g' :: "ithub.com/".data := by decide
    rw [this]
    rfl
  rw [hG]
  show (matchOwnerRepoHere ('g' :: ("ithub.com/".data ++ (o ++ '/' :: r)))).orElse
    (fun _ => findOwnerRepo ("ithub.com/".data ++ (o ++ '/' :: r))) = _
  rw [← hG, matchOwnerRepoHere_exact ho hone hr hrne]
  rfl

theorem validOwner_no_slash {o : String} (h : validOwner o) :
    ('/' : Char) ∉ o.data := by
  intro hm
  rcases h.2 '/' hm with ha | ha
  · exact absurd ha (by decide)
  · exact absurd ha (by decide)

theorem validRepo_no_slash {r : String} (h : validRepo r) :
    ('/' : Char) ∉ r.data := by
  intro hm
  rcases h.2.1 '/' hm with ha | ha | ha | ha <;> exact absurd ha (by decide)

theorem data_ne_nil_of_ne_empty {s : String} (h : s ≠ "") : s.data ≠ [] := by
  intro hd
  exact h (String.ext (by rw [hd]))

theorem data_ne_of_ne {s t : String} (h : s ≠ t) : s.data ≠ t.data := by
  intro hd
  exact h (String.ext hd)

theorem base_url_data (o r : String) :
    ("https://github.com/" ++ o ++ "/" ++ r).data =
      "https://github.com/".data ++ (o.data ++ '/' :: r.data) := by
  have hslash : ("/".data : List Char) = ['/'] := rfl
  simp [String.data_append, hslash, List.append_assoc]

theorem parse_base_ok (o r : String) (ho : validOwner o) (hr : validRepo r)
    (hot : o ≠ "tree") :
    parseGitHubUrl ("https://github.com/" ++ o ++ "/" ++ r) = .ok (o, r) := by
  have hud := base_url_data o r
  have h1 : stripGitSuffix ("https://github.com/" ++ o ++ "/" ++ r) =
      "https://github.com/" ++ o ++ "/" ++ r := by
    apply stripGitSuffix_eq_self
    rw [hud]
    have hng := no_git_suffix (r := r.data)
      (by simpa using hr.2.2) ("https://github.com/".data ++ o.data)
    intro hcon
    apply hng
    simpa [List.append_assoc] using hcon
  have h2 : stripTreeSuffix ("https://github.com/" ++ o ++ "/" ++ r) =
      "https://github.com/" ++ o ++ "/" ++ r := by
    unfold stripTreeSuffix
    rw [splitBeforeFirst_eq_none]
    rw [hud]
    exact not_tree_infix_base (validOwner_no_slash ho) (validRepo_no_slash hr)
      (data_ne_of_ne hot)
  simp only [parseGitHubUrl]
  rw [h1, h2, hud, findOwnerRepo_exact (validOwner_no_slash ho)
    (data_ne_nil_of_ne_empty ho.1) (validRepo_no_slash hr)
    (data_ne_nil_of_ne_empty hr.1)]

theorem parse_git_ok (o r : String) (ho : validOwner o) (hr : validRepo r)
    (hot : o ≠ "tree") :
    parseGitHubUrl ("https://github.com/" ++ o ++ "/" ++ r ++ ".git") = .ok (o, r) := by
  have hud := base_url_data o r
  have h1 : stripGitSuffix ("https://github.com/" ++ o ++ "/" ++ r ++ ".git") =
      "https://github.com/" ++ o ++ "/" ++ r :=
    stripGitSuffix_append ("https://github.com/" ++ o ++ "/" ++ r)
  have h2 : stripTreeSuffix ("https://github.com/" ++ o ++ "/" ++ r) =
      "https://github.com/" ++ o ++ "/" ++ r := by
    unfold stripTreeSuffix
    rw [splitBeforeFirst_eq_none]
    rw [hud]
    exact not_tree_infix_base (validOwner_no_slash ho) (validRepo_no_slash hr)
      (data_ne_of_ne hot)
  simp only [parseGitHubUrl]
  rw [h1, h2, hud, findOwnerRepo_exact (validOwner_no_slash ho)
    (data_ne_nil_of_ne_empty ho.1) (validRepo_no_slash hr)
    (data_ne_nil_of_ne_empty hr.1)]

theorem stripGitSuffix_tree (s : String) (b y0 : List Char)
    (hs : s.data = b ++ "/tree/".data ++ y0) :
    ∃ y : List Char, (stripGitSuffix s).data = b ++ "/tree/".data ++ y := by
  cases hsuf : ".git".data.isSuffixOf s.data with
  | false =>
    refine ⟨y0, ?_⟩
    unfold stripGitSuffix
    rw [if_neg (by simp [hsuf])]
    exact hs
  | true =>
    have hsuf' : ".git".data <:+ s.data := (List.isSuffixOf_iff_suffix).mp hsuf
    have ht : ("/tree/".data ++ y0) <:+ s.data := ⟨b, by rw [hs, List.append_assoc]⟩
    have h4l : ((".git".data : List Char)).length = 4 := by decide
    have h6l : (("/tree/".data : List Char)).length = 6 := by decide
    have hgt : ".git".data <:+ ("/tree/".data ++ y0) :=
      List.suffix_of_suffix_length_le hsuf' ht
        (by rw [h4l, List.length_append, h6l]; omega)
    rcases Nat.lt_or_ge y0.length 4 with h4 | h4
    · exfalso
      have hrefsuf : y0 <:+ ("/tree/".data ++ y0) := ⟨"/tree/".data, rfl⟩
      have hrg : y0 <:+ ".git".data :=
        List.suffix_of_suffix_length_le hrefsuf hgt (by rw [h4l]; omega)
      rcases hrg with ⟨s₂, hs₂⟩
      rcases hgt with ⟨u, hu⟩
      rw [← hs₂] at hu
      have hus : u ++ s₂ = "/tree/".data :=
        List.append_cancel_right (by simpa [List.append_assoc] using hu)
      have hs₂ne : s₂ ≠ [] := by
        intro hnil
        rw [hnil, List.nil_append] at hs₂
        have hlc := congrArg List.length hs₂
        rw [h4l] at hlc
        omega
      have hrhs : (("/tree/".data : List Char)).getLast? = some '/' := by decide
      have hlast : s₂.getLast? = some '/' := by
        have hg := congrArg List.getLast? hus
        rw [List.getLast?_append, hrhs] at hg
        cases hsl : s₂.getLast? with
        | none => exact absurd (List.getLast?_eq_none_iff.mp hsl) hs₂ne
        | some x =>
          rw [hsl] at hg
          rw [Option.or_some] at hg
          exact hg
      have hmem : ('/' : Char) ∈ s₂ := List.mem_of_mem_getLast? (by rw [hlast]; rfl)
      have hpre : s₂ <+: ".git".data := ⟨y0, hs₂⟩
      have hfin : ('/' : Char) ∈ (".git".data : List Char) := hpre.subset hmem
      revert hfin
      decide
    · have hrefsuf : y0 <:+ ("/tree/".data ++ y0) := ⟨"/tree/".data, rfl⟩
      have hg : ".git".data <:+ y0 :=
        List.suffix_of_suffix_length_le hgt hrefsuf (by rw [h4l]; omega)
      rcases hg with ⟨y, hy⟩
      refine ⟨y, ?_⟩
      unfold stripGitSuffix
      rw [if_pos hsuf]
      show s.data.take (s.data.length - 4) = b ++ "/tree/".data ++ y
      have hs' : s.data = (b ++ "/tree/".data ++ y) ++ ".git".data := by
        rw [hs, ← hy]
        simp [List.append_assoc]
      rw [hs']
      have hlen : ((b ++ "/tree/".data ++ y) ++ ".git".data).length - 4 =
          (b ++ "/tree/".data ++ y).length := by
        rw [List.length_append, h4l]
        omega
      rw [hlen]
      exact List.take_left' rfl

theorem parse_tree_ok (o r ref : String) (ho : validOwner o) (hr : validRepo r)
    (hot : o ≠ "tree") (hrt : r ≠ "tree") :
    parseGitHubUrl ("https://github.com/" ++ o ++ "/" ++ r ++ "/tree/" ++ ref) =
      .ok (o, r) := by
  have hud := base_url_data o r
  have hud3 : ("https://github.com/" ++ o ++ "/" ++ r ++ "/tree/" ++ ref).data =
      ("https://github.com/" ++ o ++ "/" ++ r).data ++ "/tree/".data ++ ref.data := by
    simp [String.data_append, List.append_assoc]
  rcases stripGitSuffix_tree _ _ _ hud3 with ⟨y, hy⟩
  have hno : ¬ ("/tree/".data : List Char) <:+:
      (("https://github.com/" ++ o ++ "/" ++ r).data ++
        (("/tree/".data : List Char)).dropLast) := by
    have hdl : ((("/tree/".data : List Char))).dropLast = "/tree".data := by decide
    rw [hdl, hud]
    exact not_tree_infix_ext (validOwner_no_slash ho) (validRepo_no_slash hr)
      (data_ne_of_ne hot) (data_ne_of_ne hrt)
  have hst : stripTreeSuffix
      (stripGitSuffix ("https://github.com/" ++ o ++ "/" ++ r ++ "/tree/" ++ ref)) =
      String.mk (("https://github.com/" ++ o ++ "/" ++ r).data) := by
    unfold stripTreeSuffix
    rw [hy]
    rw [splitBeforeFirst_exact (by decide) _ y hno]
  simp only [parseGitHubUrl]
  rw [hst]
  have hfd : (String.mk (("https://github.com/" ++ o ++ "/" ++ r).data)).data =
      "https://github.com/".data ++ (o.data ++ '/' :: r.data) := hud
  rw [hfd, findOwnerRepo_exact (validOwner_no_slash ho)
    (data_ne_nil_of_ne_empty ho.1) (validRepo_no_slash hr)
    (data_ne_nil_of_ne_empty hr.1)]

theorem stripLit_some :
    ∀ {t l rest : List Char}, stripLit t l = some rest → l = t ++ rest := by
  intro t
  induction t with
  | nil =>
    intro l rest h
    have h1 : some l = some rest := h
    rw [List.nil_append]
    exact Option.some_inj.mp h1
  | cons tc ts ih =>
    intro l rest h
    cases l with
    | nil => exact Option.noConfusion h
    | cons c cs =>
      unfold stripLit at h
      split at h
      · next hc =>
        rw [hc, List.cons_append]
        rw [ih h]
      · exact Option.noConfusion h

theorem dropWhile_head_false {p : Char → Bool} :
    ∀ {l : List Char} {c : Char} {rest : List Char},
      l.dropWhile p = c :: rest → p c = false := by
  intro l
  induction l with
  | nil => intro c rest h; exact absurd h (by simp)
  | cons a l' ih =>
    intro c rest h
    cases hp : p a with
    | true =>
      rw [List.dropWhile_cons, if_pos hp] at h
      exact ih h
    | false =>
      rw [List.dropWhile_cons, if_neg (by simp [hp])] at h
      injection h with h1 _
      rw [← h1]
      exact hp

theorem matchOwnerRepoHere_some_form {l : List Char} {p : String × String}
    (h : matchOwnerRepoHere l = some p) :
    ∃ o c rest, l = "github.com/".data ++ (o ++ '/' :: c :: rest) ∧
      o ≠ [] ∧ ('/' : Char) ∉ o ∧ ¬ c = '/' := by
  unfold matchOwnerRepoHere at h
  cases hsl : stripLit "github.com/".data l with
  | none =>
    rw [hsl] at h
    exact absurd h (by simp)
  | some rest0 =>
    rw [hsl] at h
    simp only [Option.bind_eq_bind, Option.some_bind] at h
    have hl0 : l = "github.com/".data ++ rest0 := stripLit_some hsl
    split at h
    · exact absurd h (by simp)
    · next hoe =>
      split at h
      · next rest2 heq =>
        split at h
        · exact absurd h (by simp)
        · next hre =>
          cases hr2 : rest2 with
          | nil =>
            rw [hr2] at hre
            exact absurd (by simp) hre
          | cons c rest' =>
            have hpc : (fun ch => decide (¬ ch = '/')) c = true := by
              by_contra hb
              rw [hr2, List.takeWhile_cons,
                if_neg (by simpa using hb)] at hre
              exact hre rfl
            refine ⟨rest0.takeWhile fun ch => ¬ ch = '/', c, rest', ?_, ?_, ?_, ?_⟩
            · rw [hl0]
              have hsplit := List.takeWhile_append_dropWhile
                (p := fun ch => decide (¬ ch = '/')) (l := rest0)
              rw [heq, hr2] at hsplit
              exact congrArg (fun x => "github.com/".data ++ x) hsplit.symm
            · intro hnil
              rw [hnil] at hoe
              exact hoe rfl
            · intro hmem
              have := List.mem_takeWhile_imp hmem
              simp at this
            · simpa using hpc
      · next heq2 => exact absurd h (by simp)

theorem findOwnerRepo_some_form :
    ∀ {l : List Char} {p : String × String}, findOwnerRepo l = some p →
      ∃ pre o c rest, l = pre ++ ("github.com/".data ++ (o ++ '/' :: c :: rest)) ∧
        o ≠ [] ∧ ('/' : Char) ∉ o ∧ ¬ c = '/' := by
  intro l
  induction l with
  | nil => intro p h; exact Option.noConfusion h
  | cons a l' ih =>
    intro p h
    rw [show findOwnerRepo (a :: l') =
      (matchOwnerRepoHere (a :: l')).orElse (fun _ => findOwnerRepo l') from rfl] at h
    cases hm : matchOwnerRepoHere (a :: l') with
    | some q =>
      rcases matchOwnerRepoHere_some_form hm with ⟨o, c, rest, hf, h1, h2, h3⟩
      exact ⟨[], o, c, rest, by simpa using hf, h1, h2, h3⟩
    | none =>
      rw [hm] at h
      replace h : findOwnerRepo l' = some p := h
      rcases ih h with ⟨pre, o, c, rest, hf, h1, h2, h3⟩
      exact ⟨a :: pre, o, c, rest, by simp [hf], h1, h2, h3⟩

theorem splitBeforeFirst_pre {pat : List Char} :
    ∀ {l pre : List Char}, splitBeforeFirst pat l = some pre → pre <+: l := by
  intro l
  induction l with
  | nil =>
    intro pre h
    unfold splitBeforeFirst at h
    split at h
    · injection h with h1
      rw [← h1]
    · exact Option.noConfusion h
  | cons c cs ih =>
    intro pre h
    unfold splitBeforeFirst at h
    split at h
    · injection h with h1
      rw [← h1]
      exact List.nil_prefix
    · cases hs : splitBeforeFirst pat cs with
      | none =>
        rw [hs] at h
        exact Option.noConfusion h
      | some pre' =>
        rw [hs] at h
        simp only [Option.map_some'] at h
        injection h with h1
        rw [← h1]
        exact List.cons_prefix_cons.mpr ⟨rfl, ih hs⟩

theorem stripGitSuffix_pre (s : String) : (stripGitSuffix s).data <+: s.data := by
  unfold stripGitSuffix
  split
  · exact List.take_prefix _ _
  · exact List.prefix_refl _

theorem stripTreeSuffix_pre (s : String) : (stripTreeSuffix s).data <+: s.data := by
  unfold stripTreeSuffix
  cases hs : splitBeforeFirst "/tree/".data s.data with
  | none => exact List.prefix_refl _
  | some pre => exact splitBeforeFirst_pre hs

theorem hasOwnerRepoForm_of_pre {s t : String} (hp : s.data <+: t.data)
    (h : hasOwnerRepoForm s) : hasOwnerRepoForm t := by
  rcases hp with ⟨ext, hext⟩
  rcases h with ⟨pre, o, c, rest, hf, h1, h2, h3⟩
  refine ⟨pre, o, c, rest ++ ext, ?_, h1, h2, h3⟩
  rw [← hext, hf]
  simp [List.append_assoc]

theorem parse_error_of_no_form (url : String) (h : ¬ hasOwnerRepoForm url) :
    parseGitHubUrl url = .error ("Invalid GitHub URL: " ++ url) := by
  simp only [parseGitHubUrl]
  cases hf : findOwnerRepo (stripTreeSuffix (stripGitSuffix url)).data with
  | none => rfl
  | some p =>
    exfalso
    apply h
    rcases findOwnerRepo_some_form hf with ⟨pre, o, c, rest, hform, h1, h2, h3⟩
    have hpf : (stripTreeSuffix (stripGitSuffix url)).data <+: url.data :=
      List.IsPrefix.trans (stripTreeSuffix_pre (stripGitSuffix url))
        (stripGitSuffix_pre url)
    exact hasOwnerRepoForm_of_pre hpf ⟨pre, o, c, rest, hform, h1, h2, h3⟩

theorem no_form_nope : ¬ hasOwnerRepoForm "nope" := by
  rintro ⟨pre, o, c, rest, h, -, -, -⟩
  have hl := congrArg List.length h
  simp [List.length_append] at hl
  omega

/-- C8: for a valid GitHub owner `o` and repo name `r` — with the
correction that neither component may be the word `tree` — `parseGitHubUrl`
maps the plain repository URL, the `.git`-suffixed URL and the
`/tree/<ref>`-suffixed URL to `(o, r)`; and every string with no
`github.com/<owner>/<repo>` occurrence is rejected with the invalid-URL
error. -/
theorem parseGitHubUrl_spec (o r ref url : String)
    (ho : validOwner o) (hr : validRepo r) (hot : o ≠ "tree")
    (hu : ¬ hasOwnerRepoForm url) :
    parseGitHubUrl ("https://github.com/" ++ o ++ "/" ++ r) = .ok (o, r) ∧
    parseGitHubUrl ("https://github.com/" ++ o ++ "/" ++ r ++ ".git") = .ok (o, r) ∧
    (r ≠ "tree" →
      parseGitHubUrl ("https://github.com/" ++ o ++ "/" ++ r ++ "/tree/" ++ ref) =
        .ok (o, r)) ∧
    parseGitHubUrl url = .error ("Invalid GitHub URL: " ++ url) :=
  ⟨parse_base_ok o r ho hr hot, parse_git_ok o r ho hr hot,
   fun hrt => parse_tree_ok o r ref ho hr hot hrt,
   parse_error_of_no_form url hu⟩

/-- C8 counterexample: `tree` is a valid GitHub owner name, yet the parser
rejects its repository URL — the `/\/tree\/.*$/` replacement fires inside
`github.com/tree/app` and truncates the string to `https://github.com`. -/
theorem parseGitHubUrl_tree_owner_counterexample :
    validOwner "tree" ∧ validRepo "app" ∧
      parseGitHubUrl "https://github.com/tree/app" =
        .error "Invalid GitHub URL: https://github.com/tree/app" :=
  ⟨by decide, by decide, rfl⟩

/-- C8 witness: the theorem applied at owner `alice`, repo `proj`, ref
`main` and the form-free string `nope`. -/
theorem parseGitHubUrl_spec_witness :
    validOwner "alice" ∧ validRepo "proj" ∧ ¬ hasOwnerRepoForm "nope" ∧
      (parseGitHubUrl ("https://github.com/" ++ "alice" ++ "/" ++ "proj") =
          .ok ("alice", "proj") ∧
        parseGitHubUrl ("https://github.com/" ++ "alice" ++ "/" ++ "proj" ++ ".git") =
          .ok ("alice", "proj") ∧
        ("proj" ≠ "tree" →
          parseGitHubUrl ("https://github.com/" ++ "alice" ++ "/" ++ "proj" ++
            "/tree/" ++ "main") = .ok ("alice", "proj")) ∧
        parseGitHubUrl "nope" = .error ("Invalid GitHub URL: " ++ "nope")) :=
  ⟨by decide, by decide, no_form_nope,
   parseGitHubUrl_spec "alice" "proj" "main" "nope" (by decide) (by decide)
     (by decide) no_form_nope⟩

end OpenQuest
